import Mathlib

/-!
# Wordle trie: a shallow embedding of `Trie.cpp`

The trie of the repository stores 5-letter words as root paths of length 5 in a tree of
`TrieNode`s, each node owning an `unordered_map<char, TrieNode*>` of children.  This file
embeds the operations of `Trie.cpp` (`countLeaves`/`size`, `insert`, `getFirstWord`,
`getAllWords`, `filter`/`filterRecursively`) as Lean functions, together with the parts of
`main.cpp` that use them (the colours of the game loop, `filterWordList`, the structural
edit of `TrieTest::test3`), and proves properties of them.

Modelling conventions.

* `std::string` is `List Char` (`Str`).
* A `TrieNode` is the list of the entries of its `children` map, in iteration order.
  An `unordered_map` does not fix that order; the functions below work on whatever order
  the list has, and the theorems speak about membership, multiplicity and length, none
  of which depends on it; `Reordered` lets the order change between two calls.  The map
  never holds a key twice: `uniqueKeys` states this where a proof needs it.
* `s[i]` on a `std::string` is defined for `i < size()` and for `i = size()` (the null
  character).  The compaction loop of `filterRecursively` also indexes a shorter path
  word further out; the value found there is supplied by a parameter `oob`, and every
  theorem holds for every `oob`.
* `countLeaves` returns `unsigned int`; the count is kept in `Nat` (it can only wrap for
  a trie of more than `2^32` leaf nodes).
* The counters `trie_counter` and `list_counter` are 32-bit `int` globals.  Their values
  are in `Int`, and `++` is `incInt32`: one more below `INT_MAX`, and the two's
  complement wrap-around to `INT_MIN` at `INT_MAX`.
* The output `filter` writes to `cout` is not modelled.
-/

namespace Wordle

/-- The type of `std::string` values. -/
abbrev Str := List Char

/-- The operation `++` on a 32-bit `int` counter: the next value, which at `INT_MAX`
(2147483647) is `INT_MIN` (-2147483648). -/
def incInt32 (counter : Int) : Int :=
  (counter + 1 + 2147483648) % 4294967296 - 2147483648

/-- Character read `s[i]`: the `i`-th character below `size()`, the null character at
`i = size()`, and `oob s i` for a read further out. -/
def charAt (oob : Str → Nat → Char) (s : Str) (i : Nat) : Char :=
  match s[i]? with
  | some c => c
  | none => if i = s.length then Char.ofNat 0 else oob s i

/-- The test `s.find(c) != std::string::npos`. -/
def found (s : Str) (c : Char) : Bool := s.contains c

/-- A node of the trie: the entries `(letter, child)` of its `children` map, in
iteration order. -/
inductive TrieNode where
  | mk (children : List (Char × TrieNode)) : TrieNode

/-- The `children` map of a node. -/
def TrieNode.children : TrieNode → List (Char × TrieNode)
  | .mk cs => cs

/-- The class `Trie`: it owns the root node. -/
structure Trie where
  root : TrieNode

/-- The constructor `Trie::Trie()`: a root without children. -/
def Trie.new : Trie := ⟨.mk []⟩

/-! ## countLeaves and size -/

mutual
/-- `Trie::countLeaves(node)` for a node that is not null; `isRoot` is the outcome of
the test `node == root`. -/
def countLeaves (isRoot : Bool) : TrieNode → Nat
  | .mk cs =>
    if isRoot && cs.isEmpty then 0
    else if cs.isEmpty then 1
    else countLeavesLoop cs
/-- The loop of `countLeaves` over the children of a node. -/
def countLeavesLoop : List (Char × TrieNode) → Nat
  | [] => 0
  | (_, child) :: rest => countLeaves false child + countLeavesLoop rest
end

/-- `Trie::size()`. -/
def Trie.size (t : Trie) : Nat := countLeaves true t.root

/-! ## insert -/

/-- `children.count(c)` and `children[c]` of the first loop of `insert`: the child
stored under `c`, if there is one. -/
def findChild (cs : List (Char × TrieNode)) (c : Char) : Option TrieNode :=
  match cs with
  | [] => none
  | (k, n) :: rest => if k = c then some n else findChild rest c

/-- The node map with the child under key `c` replaced by `n` (the map after the walk
of `insert` has gone through that child). -/
def setChild (cs : List (Char × TrieNode)) (c : Char) (n : TrieNode) :
    List (Char × TrieNode) :=
  match cs with
  | [] => []
  | (k, m) :: rest => if k = c then (k, n) :: rest else (k, m) :: setChild rest c n

/-- The second loop of `insert`: a fresh node followed by one new node per remaining
letter. -/
def newChain : List Char → TrieNode
  | [] => .mk []
  | c :: rest => .mk [(c, newChain rest)]

/-- The two loops of `insert` from node `current` on with the letters `word[i..]` still
to consume.  No letter left means `i == 5` (word already there, `false`); a letter
without child ends the first loop and the second loop hangs the remaining letters below
`current`. -/
def insertFrom : List Char → TrieNode → Bool × TrieNode
  | [], current => (false, current)
  | c :: rest, .mk cs =>
    match findChild cs c with
    | none => (true, .mk (cs ++ [(c, newChain rest)]))
    | some child =>
      let r := insertFrom rest child
      (r.1, .mk (setChild cs c r.2))

/-- `Trie::insert(word)`: the returned flag and the trie afterwards. -/
def Trie.insert (t : Trie) (word : Str) : Bool × Trie :=
  if word.length ≠ 5 then (false, t)
  else
    let r := insertFrom word t.root
    (r.1, ⟨r.2⟩)

/-! ## getAllWords and getFirstWord -/

mutual
/-- `Trie::getWordsRecursively(node, currentWord, words)`: the words it appends to
`words`. -/
def getWordsRecursively : TrieNode → Str → List Str
  | .mk cs, currentWord =>
    if currentWord.length = 5 then [currentWord] else getWordsLoop cs currentWord
/-- The loop of `getWordsRecursively` over the children of a node. -/
def getWordsLoop : List (Char × TrieNode) → Str → List Str
  | [], _ => []
  | (letter, child) :: rest, currentWord =>
    getWordsRecursively child (currentWord ++ [letter]) ++ getWordsLoop rest currentWord
end

/-- `Trie::getAllWords()`. -/
def Trie.getAllWords (t : Trie) : List Str := getWordsRecursively t.root []

/-- The `while` loop of `getFirstWord`: follow the first child while the word has
fewer than 5 letters and the current node has children. -/
def firstDescent : TrieNode → Str → Str
  | .mk cs, word =>
    if word.length < 5 then
      match cs with
      | [] => word
      | (letter, next) :: _ => firstDescent next (word ++ [letter])
    else word

/-- `Trie::getFirstWord()`. -/
def Trie.getFirstWord (t : Trie) : Str :=
  let word := firstDescent t.root []
  if word.length = 5 then word
  else
    match (t.getAllWords).find? (fun w => w.length = 5) with
    | some w => w
    | none => []

/-! ## filter -/

/-- One round of the loop in the base case of `filterRecursively` (lines 184-207):
`true` when position `i` does not set `matches = false`. -/
def matchStep (oob : Str → Nat → Char) (currentWord guess pattern : Str) (i : Nat) : Bool :=
  let g_char := charAt oob guess i
  let p_char := charAt oob pattern i
  let w_char := charAt oob currentWord i
  if p_char = 'g' then
    if w_char ≠ g_char then false else true
  else if p_char = 'y' then
    if w_char = g_char ∨ found currentWord g_char = false then false else true
  else if p_char = 'b' then
    if found currentWord g_char = true then false else true
  else true

/-- The flag `matches` computed in the base case of `filterRecursively`: the loop over
`i = 0..4` leaves it `true` when no round fails. -/
def wordMatches (oob : Str → Nat → Char) (currentWord guess pattern : Str) : Bool :=
  (List.range 5).all (matchStep oob currentWord guess pattern)

/-- One round of the loop that re-checks a childless child in `filterRecursively`
(lines 228-245): `true` when position `i` does not set `valid = false`. -/
def validStep (oob : Str → Nat → Char) (childWord guess pattern : Str) (i : Nat) : Bool :=
  let g_char := charAt oob guess i
  let p_char := charAt oob pattern i
  let w_char := charAt oob childWord i
  if p_char = 'g' ∧ w_char ≠ g_char then false
  else if p_char = 'y' ∧ (w_char = g_char ∨ found childWord g_char = false) then false
  else if p_char = 'b' ∧ found childWord g_char = true then false
  else true

/-- The flag `valid` of `filterRecursively` for the path word of a childless child. -/
def leafValid (oob : Str → Nat → Char) (childWord guess pattern : Str) : Bool :=
  (List.range 5).all (validStep oob childWord guess pattern)

mutual
/-- `Trie::filterRecursively(node, currentWord, guess, pattern)`: the node afterwards. -/
def filterRecursively (oob : Str → Nat → Char) :
    TrieNode → Str → Str → Str → TrieNode
  | .mk cs, currentWord, guess, pattern =>
    if currentWord.length = 5 then
      if wordMatches oob currentWord guess pattern then .mk cs else .mk []
    else .mk (filterLoop oob cs currentWord guess pattern)
/-- The loop of `filterRecursively` over the children: each child is filtered, and a
child that is childless afterwards and whose path word is not `valid` is erased. -/
def filterLoop (oob : Str → Nat → Char) :
    List (Char × TrieNode) → Str → Str → Str → List (Char × TrieNode)
  | [], _, _, _ => []
  | (letter, child) :: rest, currentWord, guess, pattern =>
    let child1 := filterRecursively oob child (currentWord ++ [letter]) guess pattern
    if child1.children.isEmpty ∧ leafValid oob (currentWord ++ [letter]) guess pattern = false then
      filterLoop oob rest currentWord guess pattern
    else (letter, child1) :: filterLoop oob rest currentWord guess pattern
end

/-- `Trie::filter(guess, pattern)` in a state with the global `trie_counter`: the
returned flag, the trie afterwards and the counter afterwards. -/
def Trie.filter (oob : Str → Nat → Char) (t : Trie) (trie_counter : Int)
    (guess pattern : Str) : Bool × Trie × Int :=
  if guess.length ≠ 5 ∨ pattern.length ≠ 5 then (false, t, trie_counter)
  else (true, ⟨filterRecursively oob t.root [] guess pattern⟩, incInt32 trie_counter)

/-- The trie after `insert` has been called for the strings of a list one after the
other, as the loop of `readWordTrie` does for the tokens of its file. -/
def insertAll (t : Trie) : List Str → Trie
  | [] => t
  | w :: ws => insertAll (t.insert w).2 ws

/-! ## Invariants of the node structure -/

mutual
/-- No `children` map at or below the node holds a key twice (the guarantee of
`unordered_map`). -/
def uniqueKeys : TrieNode → Bool
  | .mk cs => decide (cs.map Prod.fst).Nodup && uniqueKeysLoop cs
/-- All children in the list satisfy `uniqueKeys`. -/
def uniqueKeysLoop : List (Char × TrieNode) → Bool
  | [] => true
  | (_, child) :: rest => uniqueKeys child && uniqueKeysLoop rest
end

mutual
/-- Every path from the node downwards ends after exactly `k` edges. -/
def fullDepth : TrieNode → Nat → Bool
  | .mk cs, 0 => cs.isEmpty
  | .mk cs, k + 1 => !cs.isEmpty && fullDepthLoop cs k
/-- All children in the list satisfy `fullDepth` for `k`. -/
def fullDepthLoop : List (Char × TrieNode) → Nat → Bool
  | [], _ => true
  | (_, child) :: rest, k => fullDepth child k && fullDepthLoop rest k
end

mutual
/-- No path from the node downwards has more than `k` edges. -/
def bounded : TrieNode → Nat → Bool
  | .mk cs, 0 => cs.isEmpty
  | .mk cs, k + 1 => boundedLoop cs k
/-- All children in the list satisfy `bounded` for `k`. -/
def boundedLoop : List (Char × TrieNode) → Nat → Bool
  | [], _ => true
  | (_, child) :: rest, k => bounded child k && boundedLoop rest k
end

mutual
/-- The number of childless nodes at or below a node whose path word has `d` letters,
counting only those with fewer than 5 letters on their path. -/
def staleLeaves : TrieNode → Nat → Nat
  | .mk cs, d => if cs.isEmpty then (if d < 5 then 1 else 0) else staleLeavesLoop cs d
/-- The sum of `staleLeaves` over the children of a node with `d` letters on its
path. -/
def staleLeavesLoop : List (Char × TrieNode) → Nat → Nat
  | [], _ => 0
  | (_, child) :: rest, d => staleLeaves child (d + 1) + staleLeavesLoop rest d
end

/-- The number of childless nodes below the root that lie above depth 5. -/
def Trie.staleLeaves (t : Trie) : Nat := staleLeavesLoop t.root.children 0

/-- The same node with the entries of one `children` map, its own or one further down,
listed in another order: an `unordered_map` does not fix its iteration order, and an
insertion may change it. -/
inductive Reordered : TrieNode → TrieNode → Prop
  | atNode (cs cs1 : List (Char × TrieNode)) : cs.Perm cs1 → Reordered (.mk cs) (.mk cs1)
  | inChild (l r : List (Char × TrieNode)) (c : Char) (n n1 : TrieNode) :
      Reordered n n1 → Reordered (.mk (l ++ (c, n) :: r)) (.mk (l ++ (c, n1) :: r))

/-- The tries that the calls `insert(ws[0])`, `insert(ws[1])`, ... produce from a new
trie, whatever iteration order the maps take in between. -/
inductive InsertBuilt : List Str → Trie → Prop
  | new : InsertBuilt [] Trie.new
  | insert (ws : List Str) (t : Trie) (word : Str) :
      InsertBuilt ws t → InsertBuilt (ws ++ [word]) (t.insert word).2
  | reorder (ws : List Str) (t : Trie) (root1 : TrieNode) :
      InsertBuilt ws t → Reordered t.root root1 → InsertBuilt ws ⟨root1⟩

/-- The states of a trie reachable from a new trie by `insert` and `filter` calls,
whatever iteration order the maps take in between. -/
inductive Reachable : Trie → Prop
  | new : Reachable Trie.new
  | insert (t : Trie) (word : Str) : Reachable t → Reachable (t.insert word).2
  | filter (oob : Str → Nat → Char) (t : Trie) (trie_counter : Int) (guess pattern : Str) :
      Reachable t → Reachable (t.filter oob trie_counter guess pattern).2.1
  | reorder (t : Trie) (root1 : TrieNode) :
      Reachable t → Reordered t.root root1 → Reachable ⟨root1⟩

/-- What a sequence of `insert` calls maintains: distinct keys in every map, all leaves
at depth 5 unless the trie is empty, and no word enumerated twice. -/
structure InsertInv (t : Trie) : Prop where
  keys : uniqueKeys t.root = true
  depth : t.root.children.isEmpty = true ∨ fullDepth t.root 5 = true
  nodup : t.getAllWords.Nodup

/-! ## Concrete tries -/

/-- An out-of-range read that finds a null byte. -/
def oobNul : Str → Nat → Char := fun _ _ => Char.ofNat 0

/-- The words inserted by `TrieTest::test4`. -/
def test4Words : List Str :=
  ["swing".toList, "mango".toList, "thing".toList, "cling".toList, "peach".toList]

/-- The trie of `TrieTest::test4` before its `filter` call. -/
def test4Trie : Trie := insertAll Trie.new test4Words

/-- The trie of `TrieTest::test5` before its `filter` calls: apple and ipple. -/
def test5Trie : Trie := insertAll Trie.new ["apple".toList, "ipple".toList]

/-- The `insert` calls of `TrieTest::test3`, with the two calls for strings of another
length from `TrieTest::test2` added. -/
def test3Calls : List Str :=
  ["ogens".toList, "opend".toList, "mopoi".toList, "kmire".toList, "bpees".toList,
   "bmicy".toList, "bmice".toList, "bmicy".toList, "bmice".toList, "ogens".toList,
   "opend".toList, "mopoi".toList, "kmire".toList, "bpees".toList, "app".toList,
   "pineapple".toList]

/-- The trie after `insert("abcde")` and `filter("ezzzz", "bbbbb")` on a new trie. -/
def staleTrie : Trie :=
  ((Trie.new.insert "abcde".toList).2.filter oobNul 0 "ezzzz".toList "bbbbb".toList).2.1

/-! ## The game loop and the list-based filter of `main.cpp` -/

/-- The colour string that `TrieGamePlay` (and `ListGamePlay`) computes for a guess
against the target word (lines 339-348): `g` where the letters agree, else `y` where the
guessed letter is found in the target, else `b`. -/
def colors (oob : Str → Nat → Char) (guess targetWord : Str) : Str :=
  (List.range 5).map fun i =>
    if charAt oob guess i = charAt oob targetWord i then 'g'
    else if found targetWord (charAt oob guess i) = true then 'y'
    else 'b'

/-- One round of the inner loop of `filterWordList` (lines 412-425): `true` when
position `i` does not set `matches = false`. -/
def listStep (oob : Str → Nat → Char) (word guess colors : Str) (i : Nat) : Bool :=
  if charAt oob colors i = 'g' ∧ charAt oob word i ≠ charAt oob guess i then false
  else if charAt oob colors i = 'y' then
    if charAt oob word i = charAt oob guess i ∨ found word (charAt oob guess i) = false
    then false else true
  else if charAt oob colors i = 'b' ∧ found word (charAt oob guess i) = true then false
  else true

/-- `filterWordList(wordList, guess, colors)` in a state with the global `list_counter`:
the returned list and the counter afterwards (one increment per word examined). -/
def filterWordList (oob : Str → Nat → Char) (wordList : List Str) (guess colors : Str)
    (list_counter : Int) : List Str × Int :=
  (wordList.filter fun word => (List.range 5).all (listStep oob word guess colors),
    wordList.foldl (fun counter _ => incInt32 counter) list_counter)

/-! ## The structural edit of `TrieTest::test3` -/

/-- `children.erase(c)`: the map without the entry stored under `c`. -/
def eraseKey (cs : List (Char × TrieNode)) (c : Char) : List (Char × TrieNode) :=
  cs.filter fun x => x.1 ≠ c

/-- The edit of `TrieTest::test3` (lines 221-223): the subtree under the root key `c` is
deleted and the key erased from the root. -/
def Trie.detach (t : Trie) (c : Char) : Trie := ⟨.mk (eraseKey t.root.children c)⟩

/-! ## String reads of the prune pass -/

/-- The read `s[i]` when it is outside the string (`i` not below `size()`), as a list of
at most one entry. -/
def readOutside (s : Str) (i : Nat) : List (Str × Nat) :=
  if i < s.length then [] else [(s, i)]

/-- The reads outside their string made by a matching loop from round `i` on, `fuel`
rounds being left: each round reads `guess[i]`, `pattern[i]` and `word[i]`, and the loop
leaves by `break` after the first round for which `step` is `false`. -/
def readsOutsideFrom (step : Nat → Bool) (word guess pattern : Str) :
    Nat → Nat → List (Str × Nat)
  | _, 0 => []
  | i, fuel + 1 =>
    readOutside guess i ++ readOutside pattern i ++ readOutside word i ++
      (if step i then readsOutsideFrom step word guess pattern (i + 1) fuel else [])

mutual
/-- The reads outside their string made by `filterRecursively(node, currentWord, guess,
pattern)`, in the order in which they are made. -/
def filterReadsOutside (oob : Str → Nat → Char) :
    TrieNode → Str → Str → Str → List (Str × Nat)
  | .mk cs, currentWord, guess, pattern =>
    if currentWord.length = 5 then
      readsOutsideFrom (matchStep oob currentWord guess pattern) currentWord guess pattern 0 5
    else filterReadsOutsideLoop oob cs currentWord guess pattern
/-- The reads outside their string made by the loop of `filterRecursively` over the
children: those of the recursive call, then those of the re-check when the child is
childless after it. -/
def filterReadsOutsideLoop (oob : Str → Nat → Char) :
    List (Char × TrieNode) → Str → Str → Str → List (Str × Nat)
  | [], _, _, _ => []
  | (letter, child) :: rest, currentWord, guess, pattern =>
    filterReadsOutside oob child (currentWord ++ [letter]) guess pattern ++
      (if (filterRecursively oob child (currentWord ++ [letter]) guess pattern).children.isEmpty
        then readsOutsideFrom (validStep oob (currentWord ++ [letter]) guess pattern)
          (currentWord ++ [letter]) guess pattern 0 5
        else []) ++
      filterReadsOutsideLoop oob rest currentWord guess pattern
end

/-- The reads outside their string made by `filter(guess, pattern)`: none when the
length test fails, else those of the prune pass from the root. -/
def Trie.filterReadsOutside (oob : Str → Nat → Char) (t : Trie) (guess pattern : Str) :
    List (Str × Nat) :=
  if guess.length ≠ 5 ∨ pattern.length ≠ 5 then []
  else Wordle.filterReadsOutside oob t.root [] guess pattern

/-! ## More concrete tries -/

/-- The trie of `TrieTest::test3` before the edit: its seven words. -/
def test3Trie : Trie :=
  insertAll Trie.new ["ogens".toList, "opend".toList, "mopoi".toList, "kmire".toList,
    "bpees".toList, "bmicy".toList, "bmice".toList]

/-- The trie after `insert("stack")` on a new trie. -/
def stackTrie : Trie := (Trie.new.insert "stack".toList).2

/-- The trie after `insert("stack")`, `insert("money")` and `filter("krubi", "bbbbb")`
on a new trie: the branch of stack is cut back to the childless node of `stac`, money is
kept. -/
def staleFirstTrie : Trie :=
  (((Trie.new.insert "stack".toList).2.insert "money".toList).2.filter oobNul 0
    "krubi".toList "bbbbb".toList).2.1

/-- Induction over a trie: a property holds of every node when it holds of a node as
soon as it holds of all its children. -/
theorem TrieNode.induct {P : TrieNode → Prop}
    (step : ∀ cs : List (Char × TrieNode), (∀ x ∈ cs, P x.2) → P (.mk cs)) :
    ∀ n, P n := by
  intro n
  refine TrieNode.rec (motive_1 := P) (motive_2 := fun cs => ∀ x ∈ cs, P x.2)
    (motive_3 := fun x => P x.2) ?_ ?_ ?_ ?_ n
  · intro cs ih; exact step cs ih
  · intro x hx; cases hx
  · intro hd tl h1 h2 x hx
    rcases List.mem_cons.1 hx with rfl | hx
    · exact h1
    · exact h2 x hx
  · intro c n h; exact h

theorem validStep_eq (oob : Str → Nat → Char) (w g p : Str) (i : Nat) :
    validStep oob w g p i = matchStep oob w g p i := by
  unfold validStep matchStep
  simp only []
  by_cases h1 : charAt oob p i = 'g'
  · by_cases h2 : charAt oob w i = charAt oob g i <;> simp [h1, h2]
  · by_cases h3 : charAt oob p i = 'y'
    · by_cases h2 : charAt oob w i = charAt oob g i <;>
        by_cases h4 : found w (charAt oob g i) = true <;> simp [h1, h3, h2, h4]
    · by_cases h5 : charAt oob p i = 'b'
      · by_cases h4 : found w (charAt oob g i) = true <;> simp [h1, h3, h5, h4]
      · simp [h1, h3, h5]

theorem leafValid_eq (oob : Str → Nat → Char) (w g p : Str) :
    leafValid oob w g p = wordMatches oob w g p := by
  unfold leafValid wordMatches
  congr 1
  funext i
  exact validStep_eq oob w g p i

theorem getWordsRecursively_mk (cs : List (Char × TrieNode)) (cur : Str) :
    getWordsRecursively (.mk cs) cur = if cur.length = 5 then [cur] else getWordsLoop cs cur := by
  rw [getWordsRecursively]

theorem getWordsLoop_cons (c : Char) (n : TrieNode) (rest : List (Char × TrieNode)) (cur : Str) :
    getWordsLoop ((c, n) :: rest) cur
      = getWordsRecursively n (cur ++ [c]) ++ getWordsLoop rest cur := by
  rw [getWordsLoop]

theorem getWordsRecursively_of_ne (cs : List (Char × TrieNode)) (cur : Str)
    (h : cur.length ≠ 5) : getWordsRecursively (.mk cs) cur = getWordsLoop cs cur := by
  rw [getWordsRecursively, if_neg h]

theorem getWordsRecursively_of_eq (n : TrieNode) (cur : Str)
    (h : cur.length = 5) : getWordsRecursively n cur = [cur] := by
  cases n with
  | mk cs => rw [getWordsRecursively, if_pos h]

theorem getWordsLoop_nil (cur : Str) : getWordsLoop [] cur = [] := by
  rw [getWordsLoop]

theorem filterRecursively_of_ne (oob : Str → Nat → Char) (cs : List (Char × TrieNode))
    (cur g p : Str) (h : cur.length ≠ 5) :
    filterRecursively oob (.mk cs) cur g p = .mk (filterLoop oob cs cur g p) := by
  rw [filterRecursively, if_neg h]

theorem filterRecursively_of_eq (oob : Str → Nat → Char) (cs : List (Char × TrieNode))
    (cur g p : Str) (h : cur.length = 5) :
    filterRecursively oob (.mk cs) cur g p
      = if wordMatches oob cur g p then .mk cs else .mk [] := by
  rw [filterRecursively, if_pos h]

theorem filterLoop_nil (oob : Str → Nat → Char) (cur g p : Str) :
    filterLoop oob [] cur g p = [] := by
  rw [filterLoop]

theorem filterLoop_cons (oob : Str → Nat → Char) (c : Char) (n : TrieNode)
    (rest : List (Char × TrieNode)) (cur g p : Str) :
    filterLoop oob ((c, n) :: rest) cur g p
      = if (filterRecursively oob n (cur ++ [c]) g p).children.isEmpty ∧
            leafValid oob (cur ++ [c]) g p = false then
          filterLoop oob rest cur g p
        else (c, filterRecursively oob n (cur ++ [c]) g p) :: filterLoop oob rest cur g p := by
  rw [filterLoop]

/-- What one child contributes to the words after the loop of `filterRecursively`. -/
theorem getWords_filter_child (oob : Str → Nat → Char) (g p : Str) (n : TrieNode) (w : Str)
    (ih : w.length ≠ 5 → getWordsRecursively (filterRecursively oob n w g p) w
      = (getWordsRecursively n w).filter (fun x => wordMatches oob x g p)) :
    (if (filterRecursively oob n w g p).children.isEmpty ∧ leafValid oob w g p = false
      then [] else getWordsRecursively (filterRecursively oob n w g p) w)
      = (getWordsRecursively n w).filter (fun x => wordMatches oob x g p) := by
  by_cases h5 : w.length = 5
  · rw [getWordsRecursively_of_eq _ _ h5, getWordsRecursively_of_eq _ _ h5, leafValid_eq]
    cases n with
    | mk cs =>
      rw [filterRecursively_of_eq _ _ _ _ _ h5]
      by_cases hm : wordMatches oob w g p = true
      · simp [hm]
      · simp [hm, TrieNode.children]
  · rw [ih h5]
    split
    · rename_i hc
      have hnil : getWordsRecursively (filterRecursively oob n w g p) w = [] := by
        cases hf : filterRecursively oob n w g p with
        | mk cs' =>
          rw [hf] at hc
          have : cs' = [] := by simpa [TrieNode.children] using hc.1
          rw [getWordsRecursively_of_ne _ _ h5, this, getWordsLoop_nil]
      rw [← ih h5, hnil]
    · rfl

theorem getWordsLoop_filterLoop (oob : Str → Nat → Char) (g p : Str) :
    ∀ cs : List (Char × TrieNode),
      (∀ x ∈ cs, ∀ cur : Str, cur.length ≠ 5 →
        getWordsRecursively (filterRecursively oob x.2 cur g p) cur
          = (getWordsRecursively x.2 cur).filter (fun w => wordMatches oob w g p)) →
      ∀ cur : Str, getWordsLoop (filterLoop oob cs cur g p) cur
          = (getWordsLoop cs cur).filter (fun w => wordMatches oob w g p) := by
  intro cs
  induction cs with
  | nil => intro _ cur; rw [filterLoop_nil, getWordsLoop_nil]; rfl
  | cons x rest ihr =>
    intro ih cur
    obtain ⟨c, n⟩ := x
    have hrest := ihr (fun y hy => ih y (List.mem_cons_of_mem _ hy)) cur
    have hchild := getWords_filter_child oob g p n (cur ++ [c])
      (ih (c, n) (List.mem_cons_self _ _) (cur ++ [c]))
    rw [filterLoop_cons, getWordsLoop_cons, List.filter_append, ← hchild, ← hrest]
    split
    · simp
    · rw [getWordsLoop_cons]

/-- The words below a node after `filterRecursively` are the words below it before that
satisfy `wordMatches`, in the same order. -/
theorem getWords_filterRecursively (oob : Str → Nat → Char) (g p : Str) :
    ∀ (n : TrieNode) (cur : Str), cur.length ≠ 5 →
      getWordsRecursively (filterRecursively oob n cur g p) cur
        = (getWordsRecursively n cur).filter (fun w => wordMatches oob w g p) := by
  intro n
  induction n using TrieNode.induct with
  | step cs ih =>
    intro cur h5
    rw [filterRecursively_of_ne _ _ _ _ _ h5, getWordsRecursively_of_ne _ _ h5,
      getWordsRecursively_of_ne _ _ h5]
    exact getWordsLoop_filterLoop oob g p cs ih cur

theorem charAt_of_getElem? (oob : Str → Nat → Char) (s : Str) (i : Nat) (c : Char)
    (h : s[i]? = some c) : charAt oob s i = c := by
  unfold charAt; rw [h]

theorem found_iff (s : Str) (c : Char) : found s c = true ↔ c ∈ s := by
  unfold found; simp

/-- Position `i` passes the matching loop exactly when the three feedback rules hold
there. -/
theorem matchStep_iff (oob : Str → Nat → Char) (w guess pattern : Str) (i : Nat)
    (c g q : Char) (hw : w[i]? = some c) (hg : guess[i]? = some g)
    (hq : pattern[i]? = some q) :
    matchStep oob w guess pattern i = true ↔
      (q = 'g' → c = g) ∧ (q = 'y' → c ≠ g ∧ g ∈ w) ∧ (q = 'b' → g ∉ w) := by
  unfold matchStep
  simp only [charAt_of_getElem? oob _ _ _ hw, charAt_of_getElem? oob _ _ _ hg,
    charAt_of_getElem? oob _ _ _ hq]
  by_cases h1 : q = 'g'
  · subst h1; by_cases h2 : c = g <;> simp [h2]
  · by_cases h3 : q = 'y'
    · subst h3
      by_cases h2 : c = g <;> by_cases h4 : g ∈ w <;> simp [h2, h4, found]
    · by_cases h5 : q = 'b'
      · subst h5; by_cases h4 : g ∈ w <;> simp [h4, found]
      · simp [h1, h3, h5]

theorem exists_getElem?_of_lt (s : Str) (i : Nat) (h : i < s.length) :
    ∃ c, s[i]? = some c := ⟨s[i], List.getElem?_eq_getElem h⟩

/-- For strings of length 5, `wordMatches` is the relation `matches` of the feedback
rules: hit, present and absent at each of the five positions. -/
theorem wordMatches_iff (oob : Str → Nat → Char) (w guess pattern : Str)
    (hw : w.length = 5) (hg : guess.length = 5) (hp : pattern.length = 5) :
    wordMatches oob w guess pattern = true ↔
      ∀ i, i < 5 → ∃ c g q, w[i]? = some c ∧ guess[i]? = some g ∧ pattern[i]? = some q ∧
        (q = 'g' → c = g) ∧ (q = 'y' → c ≠ g ∧ g ∈ w) ∧ (q = 'b' → g ∉ w) := by
  unfold wordMatches
  rw [List.all_eq_true]
  constructor
  · intro h i hi
    obtain ⟨c, hc⟩ := exists_getElem?_of_lt w i (hw ▸ hi)
    obtain ⟨g, hgc⟩ := exists_getElem?_of_lt guess i (hg ▸ hi)
    obtain ⟨q, hqc⟩ := exists_getElem?_of_lt pattern i (hp ▸ hi)
    exact ⟨c, g, q, hc, hgc, hqc,
      (matchStep_iff oob w guess pattern i c g q hc hgc hqc).1 (h i (List.mem_range.2 hi))⟩
  · intro h i hi
    obtain ⟨c, g, q, hc, hgc, hqc, hrules⟩ := h i (List.mem_range.1 hi)
    exact (matchStep_iff oob w guess pattern i c g q hc hgc hqc).2 hrules

/-- Every word enumerated below a node has 5 letters. -/
theorem length_of_mem_getWords :
    ∀ (n : TrieNode) (cur w : Str), w ∈ getWordsRecursively n cur → w.length = 5 := by
  intro n
  induction n using TrieNode.induct with
  | step cs ih =>
    intro cur w hw
    by_cases h5 : cur.length = 5
    · rw [getWordsRecursively_of_eq _ _ h5] at hw
      rw [List.mem_singleton.1 hw]; exact h5
    · rw [getWordsRecursively_of_ne _ _ h5] at hw
      induction cs with
      | nil => rw [getWordsLoop_nil] at hw; cases hw
      | cons x rest ihr =>
        obtain ⟨c, n⟩ := x
        rw [getWordsLoop_cons] at hw
        rcases List.mem_append.1 hw with h | h
        · exact ih (c, n) (List.mem_cons_self _ _) _ _ h
        · exact ihr (fun y hy => ih y (List.mem_cons_of_mem _ hy)) h

theorem length_of_mem_getAllWords (t : Trie) (w : Str) (h : w ∈ t.getAllWords) :
    w.length = 5 := length_of_mem_getWords t.root [] w h

/-- The words of the trie after a `filter` with a guess and a pattern of 5 characters:
the words before that satisfy `wordMatches`, in the same order. -/
theorem getAllWords_filter (oob : Str → Nat → Char) (t : Trie) (k : Int)
    (guess pattern : Str) (hg : guess.length = 5) (hp : pattern.length = 5) :
    (t.filter oob k guess pattern).2.1.getAllWords
      = t.getAllWords.filter (fun w => wordMatches oob w guess pattern) := by
  unfold Trie.filter Trie.getAllWords
  rw [if_neg (by simp [hg, hp])]
  exact getWords_filterRecursively oob guess pattern t.root [] (by simp)

/-! ## Words below a node -/

theorem getWordsLoop_append (l r : List (Char × TrieNode)) (cur : Str) :
    getWordsLoop (l ++ r) cur = getWordsLoop l cur ++ getWordsLoop r cur := by
  induction l with
  | nil => rw [getWordsLoop_nil]; rfl
  | cons x l ih =>
    obtain ⟨c, n⟩ := x
    rw [List.cons_append, getWordsLoop_cons, getWordsLoop_cons, ih, List.append_assoc]

theorem mem_getWordsLoop (cs : List (Char × TrieNode)) (cur w : Str) :
    w ∈ getWordsLoop cs cur ↔ ∃ x ∈ cs, w ∈ getWordsRecursively x.2 (cur ++ [x.1]) := by
  induction cs with
  | nil => rw [getWordsLoop_nil]; simp
  | cons x rest ih =>
    obtain ⟨c, n⟩ := x
    rw [getWordsLoop_cons, List.mem_append, ih]
    simp

/-- Every word enumerated below a node extends the path word of that node. -/
theorem prefix_of_mem_getWords :
    ∀ (n : TrieNode) (cur w : Str), w ∈ getWordsRecursively n cur → cur <+: w := by
  intro n
  induction n using TrieNode.induct with
  | step cs ih =>
    intro cur w hw
    by_cases h5 : cur.length = 5
    · rw [getWordsRecursively_of_eq _ _ h5] at hw
      rw [List.mem_singleton.1 hw]
    · rw [getWordsRecursively_of_ne _ _ h5, mem_getWordsLoop] at hw
      obtain ⟨x, hx, hwx⟩ := hw
      exact (List.prefix_append cur [x.1]).trans (ih x hx _ _ hwx)

theorem getWords_newChain : ∀ (ls : List Char) (cur : Str), cur.length + ls.length = 5 →
    getWordsRecursively (newChain ls) cur = [cur ++ ls] := by
  intro ls
  induction ls with
  | nil =>
    intro cur h
    rw [getWordsRecursively_of_eq _ _ (by simpa using h)]; simp
  | cons c rest ih =>
    intro cur h
    have h5 : cur.length ≠ 5 := by simp at h; omega
    rw [newChain, getWordsRecursively_of_ne _ _ h5, getWordsLoop_cons, getWordsLoop_nil,
      ih (cur ++ [c]) (by simp at h ⊢; omega)]
    simp

/-! ## The map operations of `insert` -/

theorem findChild_eq_none (cs : List (Char × TrieNode)) (c : Char) :
    findChild cs c = none ↔ c ∉ cs.map Prod.fst := by
  induction cs with
  | nil => simp [findChild]
  | cons x rest ih =>
    obtain ⟨k, n⟩ := x
    by_cases hk : k = c
    · simp [findChild, hk]
    · simp [findChild, hk, ih, Ne.symm hk]

/-- A successful lookup splits the map at the entry found, and `setChild` rewrites that
entry. -/
theorem findChild_eq_some (cs : List (Char × TrieNode)) (c : Char) (child : TrieNode)
    (h : findChild cs c = some child) :
    ∃ l r, cs = l ++ (c, child) :: r ∧ ∀ n, setChild cs c n = l ++ (c, n) :: r := by
  induction cs with
  | nil => simp [findChild] at h
  | cons x rest ih =>
    obtain ⟨k, m⟩ := x
    by_cases hk : k = c
    · subst hk
      simp [findChild] at h
      subst h
      exact ⟨[], rest, rfl, fun n => by simp [setChild]⟩
    · simp [findChild, hk] at h
      obtain ⟨l, r, hcs, hset⟩ := ih h
      refine ⟨(k, m) :: l, r, by rw [hcs]; rfl, fun n => ?_⟩
      simp [setChild, hk, hset n]

theorem findChild_of_mem (cs : List (Char × TrieNode)) (c : Char) (child : TrieNode)
    (hnd : (cs.map Prod.fst).Nodup) (h : (c, child) ∈ cs) : findChild cs c = some child := by
  induction cs with
  | nil => cases h
  | cons x rest ih =>
    obtain ⟨k, m⟩ := x
    rw [List.map_cons, List.nodup_cons] at hnd
    rcases List.mem_cons.1 h with heq | hmem
    · cases heq; simp [findChild]
    · have hk : k ≠ c := by
        intro hkc
        subst hkc
        exact hnd.1 (List.mem_map.2 ⟨(k, child), hmem, rfl⟩)
      simp [findChild, hk, ih hnd.2 hmem]

theorem setChild_self (cs : List (Char × TrieNode)) (c : Char) (child : TrieNode)
    (h : findChild cs c = some child) : setChild cs c child = cs := by
  obtain ⟨l, r, hcs, hset⟩ := findChild_eq_some cs c child h
  rw [hset child, hcs]

theorem map_fst_setChild (cs : List (Char × TrieNode)) (c : Char) (n : TrieNode) :
    (setChild cs c n).map Prod.fst = cs.map Prod.fst := by
  induction cs with
  | nil => simp [setChild]
  | cons x rest ih =>
    obtain ⟨k, m⟩ := x
    by_cases hk : k = c
    · simp [setChild, hk]
    · simp [setChild, hk, ih]

theorem insertFrom_nil (n : TrieNode) : insertFrom [] n = (false, n) := by
  rw [insertFrom]

theorem insertFrom_cons_none (c : Char) (rest : List Char) (cs : List (Char × TrieNode))
    (h : findChild cs c = none) :
    insertFrom (c :: rest) (.mk cs) = (true, .mk (cs ++ [(c, newChain rest)])) := by
  rw [insertFrom]; simp only [h]

theorem insertFrom_cons_some (c : Char) (rest : List Char) (cs : List (Char × TrieNode))
    (child : TrieNode) (h : findChild cs c = some child) :
    insertFrom (c :: rest) (.mk cs)
      = ((insertFrom rest child).1, .mk (setChild cs c (insertFrom rest child).2)) := by
  rw [insertFrom]; simp only [h]

/-! ## Invariants as statements about the children -/

theorem uniqueKeysLoop_iff (cs : List (Char × TrieNode)) :
    uniqueKeysLoop cs = true ↔ ∀ x ∈ cs, uniqueKeys x.2 = true := by
  induction cs with
  | nil => simp [uniqueKeysLoop]
  | cons x rest ih => obtain ⟨c, n⟩ := x; simp [uniqueKeysLoop, ih]

theorem uniqueKeys_mk (cs : List (Char × TrieNode)) :
    uniqueKeys (.mk cs) = true ↔
      (cs.map Prod.fst).Nodup ∧ ∀ x ∈ cs, uniqueKeys x.2 = true := by
  rw [uniqueKeys, Bool.and_eq_true, uniqueKeysLoop_iff, decide_eq_true_iff]

theorem fullDepthLoop_iff (cs : List (Char × TrieNode)) (k : Nat) :
    fullDepthLoop cs k = true ↔ ∀ x ∈ cs, fullDepth x.2 k = true := by
  induction cs with
  | nil => simp [fullDepthLoop]
  | cons x rest ih => obtain ⟨c, n⟩ := x; simp [fullDepthLoop, ih]

theorem boundedLoop_iff (cs : List (Char × TrieNode)) (k : Nat) :
    boundedLoop cs k = true ↔ ∀ x ∈ cs, bounded x.2 k = true := by
  induction cs with
  | nil => simp [boundedLoop]
  | cons x rest ih => obtain ⟨c, n⟩ := x; simp [boundedLoop, ih]

/-! ## insert -/

/-- Inserting a word that is enumerated below the node changes nothing and reports
`false`. -/
theorem insertFrom_present : ∀ (ls : List Char) (n : TrieNode) (cur : Str),
    uniqueKeys n = true → cur ++ ls ∈ getWordsRecursively n cur →
    cur.length + ls.length = 5 → insertFrom ls n = (false, n) := by
  intro ls
  induction ls with
  | nil => intro n cur _ _ _; exact insertFrom_nil n
  | cons c rest ih =>
    intro n cur hu hw hlen
    cases n with
    | mk cs =>
      have h5 : cur.length ≠ 5 := by simp at hlen; omega
      rw [getWordsRecursively_of_ne _ _ h5, mem_getWordsLoop] at hw
      obtain ⟨x, hx, hwx⟩ := hw
      obtain ⟨k, child⟩ := x
      have hpre := prefix_of_mem_getWords child _ _ hwx
      have hk : k = c := by
        have h2 : cur ++ [k] <+: cur ++ (c :: rest) := hpre
        rw [List.prefix_append_right_inj] at h2
        obtain ⟨t, ht⟩ := h2
        simp at ht
        exact ht.1
      subst hk
      rw [uniqueKeys_mk] at hu
      have hfind := findChild_of_mem cs k child hu.1 hx
      have hrec := ih child (cur ++ [k]) (hu.2 _ hx) (by simpa using hwx)
        (by simp at hlen ⊢; omega)
      rw [insertFrom_cons_some k rest cs child hfind, hrec]
      simp only [setChild_self cs k child hfind]

/-- Inserting a word that is not enumerated below the node reports `true` and adds
exactly that word to the enumeration. -/
theorem insertFrom_absent : ∀ (ls : List Char) (n : TrieNode) (cur : Str),
    cur ++ ls ∉ getWordsRecursively n cur → cur.length + ls.length = 5 →
    (insertFrom ls n).1 = true ∧
      (getWordsRecursively (insertFrom ls n).2 cur).Perm
        ((cur ++ ls) :: getWordsRecursively n cur) := by
  intro ls
  induction ls with
  | nil =>
    intro n cur hw hlen
    exfalso
    apply hw
    rw [getWordsRecursively_of_eq _ _ (by simpa using hlen)]
    simp
  | cons c rest ih =>
    intro n cur hw hlen
    cases n with
    | mk cs =>
      have h5 : cur.length ≠ 5 := by simp at hlen; omega
      have hlen1 : (cur ++ [c]).length + rest.length = 5 := by simp at hlen ⊢; omega
      rw [getWordsRecursively_of_ne _ _ h5] at hw ⊢
      cases hfind : findChild cs c with
      | none =>
        rw [insertFrom_cons_none c rest cs hfind]
        refine ⟨rfl, ?_⟩
        rw [getWordsRecursively_of_ne _ _ h5, getWordsLoop_append, getWordsLoop_cons,
          getWordsLoop_nil, getWords_newChain rest (cur ++ [c]) hlen1]
        simp only [List.append_assoc, List.singleton_append, List.append_nil]
        exact List.perm_append_singleton _ _
      | some child =>
        obtain ⟨l, r, hcs, hset⟩ := findChild_eq_some cs c child hfind
        rw [insertFrom_cons_some c rest cs child hfind]
        have hnot : (cur ++ [c]) ++ rest ∉ getWordsRecursively child (cur ++ [c]) := by
          intro hin
          apply hw
          rw [mem_getWordsLoop]
          exact ⟨(c, child), by rw [hcs]; simp, by simpa using hin⟩
        obtain ⟨hret, hperm⟩ := ih child (cur ++ [c]) hnot hlen1
        refine ⟨hret, ?_⟩
        simp only [List.append_assoc, List.singleton_append] at hperm
        rw [getWordsRecursively_of_ne _ _ h5, hset, hcs, getWordsLoop_append,
          getWordsLoop_append, getWordsLoop_cons, getWordsLoop_cons]
        refine ((List.Perm.append_left _ (List.Perm.append_right _ hperm))).trans ?_
        simp only [List.cons_append]
        exact List.perm_middle

theorem uniqueKeys_newChain : ∀ ls : List Char, uniqueKeys (newChain ls) = true := by
  intro ls
  induction ls with
  | nil => rw [newChain, uniqueKeys_mk]; simp
  | cons c rest ih => rw [newChain, uniqueKeys_mk]; simp [ih]

/-- `insert` keeps the keys of every `children` map distinct. -/
theorem uniqueKeys_insertFrom : ∀ (ls : List Char) (n : TrieNode),
    uniqueKeys n = true → uniqueKeys (insertFrom ls n).2 = true := by
  intro ls
  induction ls with
  | nil => intro n hu; rw [insertFrom_nil]; exact hu
  | cons c rest ih =>
    intro n hu
    cases n with
    | mk cs =>
      rw [uniqueKeys_mk] at hu
      cases hfind : findChild cs c with
      | none =>
        rw [insertFrom_cons_none c rest cs hfind, uniqueKeys_mk]
        have hc := (findChild_eq_none cs c).1 hfind
        constructor
        · rw [List.map_append, List.nodup_append]
          refine ⟨hu.1, by simp, ?_⟩
          intro a ha hb
          simp at hb
          subst hb
          exact hc ha
        · intro x hx
          rcases List.mem_append.1 hx with h | h
          · exact hu.2 x h
          · simp at h; subst h; exact uniqueKeys_newChain rest
      | some child =>
        obtain ⟨l, r, hcs, hset⟩ := findChild_eq_some cs c child hfind
        rw [insertFrom_cons_some c rest cs child hfind, uniqueKeys_mk, map_fst_setChild]
        refine ⟨hu.1, ?_⟩
        intro x hx
        rw [hset] at hx
        have hchild : uniqueKeys child = true := hu.2 (c, child) (by rw [hcs]; simp)
        rcases List.mem_append.1 hx with h | h
        · exact hu.2 x (by rw [hcs]; exact List.mem_append_left _ h)
        · rcases List.mem_cons.1 h with h | h
          · subst h; exact ih child hchild
          · exact hu.2 x (by rw [hcs]; simp [h])

/-! ## Depth invariants -/

theorem fullDepth_newChain : ∀ ls : List Char, fullDepth (newChain ls) ls.length = true := by
  intro ls
  induction ls with
  | nil => rw [newChain]; simp [fullDepth]
  | cons c rest ih =>
    rw [newChain, List.length_cons, fullDepth, Bool.and_eq_true, fullDepthLoop_iff]
    simp [ih]

/-- `insert` keeps every leaf at the depth where it was. -/
theorem fullDepth_insertFrom : ∀ (ls : List Char) (n : TrieNode),
    fullDepth n ls.length = true → fullDepth (insertFrom ls n).2 ls.length = true := by
  intro ls
  induction ls with
  | nil => intro n h; rw [insertFrom_nil]; exact h
  | cons c rest ih =>
    intro n h
    cases n with
    | mk cs =>
      rw [List.length_cons, fullDepth, Bool.and_eq_true, fullDepthLoop_iff] at h
      cases hfind : findChild cs c with
      | none =>
        rw [insertFrom_cons_none c rest cs hfind, List.length_cons, fullDepth,
          Bool.and_eq_true, fullDepthLoop_iff]
        refine ⟨by simp, ?_⟩
        intro x hx
        rcases List.mem_append.1 hx with hx | hx
        · exact h.2 x hx
        · simp at hx; subst hx; exact fullDepth_newChain rest
      | some child =>
        obtain ⟨l, r, hcs, hset⟩ := findChild_eq_some cs c child hfind
        rw [insertFrom_cons_some c rest cs child hfind, List.length_cons, fullDepth,
          Bool.and_eq_true, fullDepthLoop_iff, hset]
        refine ⟨by simp, ?_⟩
        intro x hx
        rcases List.mem_append.1 hx with hx | hx
        · exact h.2 x (by rw [hcs]; exact List.mem_append_left _ hx)
        · rcases List.mem_cons.1 hx with hx | hx
          · subst hx; exact ih child (h.2 (c, child) (by rw [hcs]; simp))
          · exact h.2 x (by rw [hcs]; simp [hx])

theorem bounded_of_fullDepth : ∀ (n : TrieNode) (k : Nat),
    fullDepth n k = true → bounded n k = true := by
  intro n
  induction n using TrieNode.induct with
  | step cs ih =>
    intro k h
    cases k with
    | zero => rw [fullDepth] at h; rw [bounded]; exact h
    | succ k =>
      rw [fullDepth, Bool.and_eq_true, fullDepthLoop_iff] at h
      rw [bounded, boundedLoop_iff]
      exact fun x hx => ih x hx k (h.2 x hx)

theorem bounded_newChain (ls : List Char) : bounded (newChain ls) ls.length = true :=
  bounded_of_fullDepth _ _ (fullDepth_newChain ls)

/-- `insert` creates no node below the depth of the last letter. -/
theorem bounded_insertFrom : ∀ (ls : List Char) (n : TrieNode),
    bounded n ls.length = true → bounded (insertFrom ls n).2 ls.length = true := by
  intro ls
  induction ls with
  | nil => intro n h; rw [insertFrom_nil]; exact h
  | cons c rest ih =>
    intro n h
    cases n with
    | mk cs =>
      rw [List.length_cons, bounded, boundedLoop_iff] at h
      cases hfind : findChild cs c with
      | none =>
        rw [insertFrom_cons_none c rest cs hfind, List.length_cons, bounded, boundedLoop_iff]
        intro x hx
        rcases List.mem_append.1 hx with hx | hx
        · exact h x hx
        · simp at hx; subst hx; exact bounded_newChain rest
      | some child =>
        obtain ⟨l, r, hcs, hset⟩ := findChild_eq_some cs c child hfind
        rw [insertFrom_cons_some c rest cs child hfind, List.length_cons, bounded,
          boundedLoop_iff, hset]
        intro x hx
        rcases List.mem_append.1 hx with hx | hx
        · exact h x (by rw [hcs]; exact List.mem_append_left _ hx)
        · rcases List.mem_cons.1 hx with hx | hx
          · subst hx; exact ih child (h (c, child) (by rw [hcs]; simp))
          · exact h x (by rw [hcs]; simp [hx])

theorem mem_filterLoop (oob : Str → Nat → Char) (g p : Str) (cs : List (Char × TrieNode))
    (cur : Str) (x : Char × TrieNode) (hx : x ∈ filterLoop oob cs cur g p) :
    ∃ y ∈ cs, x = (y.1, filterRecursively oob y.2 (cur ++ [y.1]) g p) := by
  induction cs with
  | nil => rw [filterLoop_nil] at hx; cases hx
  | cons y rest ih =>
    obtain ⟨c, n⟩ := y
    rw [filterLoop_cons] at hx
    split at hx
    · obtain ⟨z, hz, hxz⟩ := ih hx
      exact ⟨z, List.mem_cons_of_mem _ hz, hxz⟩
    · rcases List.mem_cons.1 hx with hx | hx
      · exact ⟨(c, n), List.mem_cons_self _ _, hx⟩
      · obtain ⟨z, hz, hxz⟩ := ih hx
        exact ⟨z, List.mem_cons_of_mem _ hz, hxz⟩

/-- `filter` creates no node: a depth bound on the paths survives it. -/
theorem bounded_filterRecursively (oob : Str → Nat → Char) (g p : Str) :
    ∀ (n : TrieNode) (cur : Str) (k : Nat), cur.length + k = 5 → bounded n k = true →
      bounded (filterRecursively oob n cur g p) k = true := by
  intro n
  induction n using TrieNode.induct with
  | step cs ih =>
    intro cur k hlen hb
    cases k with
    | zero =>
      rw [bounded] at hb
      have hcs : cs = [] := by simpa using hb
      subst hcs
      rw [filterRecursively_of_eq _ _ _ _ _ (by simpa using hlen)]
      split <;> simp [bounded]
    | succ k =>
      rw [bounded, boundedLoop_iff] at hb
      rw [filterRecursively_of_ne _ _ _ _ _ (by omega), bounded, boundedLoop_iff]
      intro x hx
      obtain ⟨y, hy, hxy⟩ := mem_filterLoop oob g p cs cur x hx
      subst hxy
      exact ih y hy _ k (by simp; omega) (hb y hy)

/-! ## Counting leaves -/

theorem countLeaves_false (cs : List (Char × TrieNode)) :
    countLeaves false (.mk cs) = if cs.isEmpty then 1 else countLeavesLoop cs := by
  rw [countLeaves]; simp

theorem countLeaves_true (cs : List (Char × TrieNode)) :
    countLeaves true (.mk cs) = if cs.isEmpty then 0 else countLeavesLoop cs := by
  by_cases h : cs.isEmpty = true <;> simp [countLeaves, h]

theorem countLeavesLoop_nil : countLeavesLoop [] = 0 := by rw [countLeavesLoop]

theorem countLeavesLoop_cons (c : Char) (n : TrieNode) (rest : List (Char × TrieNode)) :
    countLeavesLoop ((c, n) :: rest) = countLeaves false n + countLeavesLoop rest := by
  rw [countLeavesLoop]

theorem staleLeavesLoop_nil (d : Nat) : staleLeavesLoop [] d = 0 := by
  rw [staleLeavesLoop]

theorem staleLeavesLoop_cons (c : Char) (n : TrieNode) (rest : List (Char × TrieNode))
    (d : Nat) : staleLeavesLoop ((c, n) :: rest) d
      = staleLeaves n (d + 1) + staleLeavesLoop rest d := by
  rw [staleLeavesLoop]

/-- Below a node without over-long paths, the leaves counted by `countLeaves` are the
words enumerated there together with the childless nodes above depth 5. -/
theorem countLeaves_eq : ∀ (n : TrieNode) (cur : Str) (k : Nat),
    cur.length + k = 5 → bounded n k = true →
    countLeaves false n = (getWordsRecursively n cur).length + staleLeaves n cur.length := by
  intro n
  induction n using TrieNode.induct with
  | step cs ih =>
    intro cur k hlen hb
    cases k with
    | zero =>
      rw [bounded] at hb
      have hcs : cs = [] := by simpa using hb
      subst hcs
      have h5 : cur.length = 5 := by simpa using hlen
      rw [countLeaves_false, getWordsRecursively_of_eq _ _ h5, staleLeaves, h5]
      simp
    | succ k =>
      rw [bounded, boundedLoop_iff] at hb
      have h5 : cur.length ≠ 5 := by omega
      rw [countLeaves_false, getWordsRecursively_of_ne _ _ h5, staleLeaves]
      have hloop : ∀ l : List (Char × TrieNode), (∀ x ∈ l, x ∈ cs) →
          countLeavesLoop l = (getWordsLoop l cur).length + staleLeavesLoop l cur.length := by
        intro l
        induction l with
        | nil => intro _; rw [countLeavesLoop_nil, getWordsLoop_nil, staleLeavesLoop_nil]; rfl
        | cons x rest ihl =>
          intro hsub
          obtain ⟨c, m⟩ := x
          have hm := hsub (c, m) (List.mem_cons_self _ _)
          have hchild := ih (c, m) hm (cur ++ [c]) k (by simp; omega) (hb _ hm)
          rw [countLeavesLoop_cons, getWordsLoop_cons, staleLeavesLoop_cons,
            List.length_append, ihl (fun y hy => hsub y (List.mem_cons_of_mem _ hy)), hchild]
          simp only [List.length_append, List.length_singleton]
          omega
      cases cs with
      | nil =>
        have hlt : cur.length < 5 := by omega
        simp [getWordsLoop_nil, hlt]
      | cons x rest => simpa using hloop (x :: rest) (fun y hy => hy)

/-- In a trie without paths longer than 5, `size()` is the number of words plus the
number of childless nodes above depth 5. -/
theorem size_eq_of_bounded (t : Trie) (hb : bounded t.root 5 = true) :
    t.size = t.getAllWords.length + t.staleLeaves := by
  obtain ⟨root⟩ := t
  cases root with
  | mk cs =>
    have h := countLeaves_eq (.mk cs) [] 5 (by simp) hb
    simp only [Trie.size, Trie.getAllWords, Trie.staleLeaves, TrieNode.children]
    rw [countLeaves_true]
    rw [countLeaves_false] at h
    cases cs with
    | nil => simp [getWordsRecursively_of_ne, getWordsLoop_nil, staleLeavesLoop_nil]
    | cons x rest =>
      simp only [List.isEmpty_cons, Bool.false_eq_true, if_false] at h ⊢
      rw [h, staleLeaves]
      simp

/-- Below a node all of whose leaves lie at depth 5 there is no childless node above
depth 5. -/
theorem staleLeaves_of_fullDepth : ∀ (n : TrieNode) (d k : Nat),
    d + k = 5 → fullDepth n k = true → staleLeaves n d = 0 := by
  intro n
  induction n using TrieNode.induct with
  | step cs ih =>
    intro d k hlen hf
    cases k with
    | zero =>
      rw [fullDepth] at hf
      rw [staleLeaves, if_pos hf, if_neg (by omega)]
    | succ k =>
      rw [fullDepth, Bool.and_eq_true, fullDepthLoop_iff] at hf
      rw [staleLeaves, if_neg (by simpa using hf.1)]
      have hloop : ∀ l : List (Char × TrieNode), (∀ x ∈ l, x ∈ cs) →
          staleLeavesLoop l d = 0 := by
        intro l
        induction l with
        | nil => intro _; exact staleLeavesLoop_nil d
        | cons x rest ihl =>
          intro hsub
          obtain ⟨c, m⟩ := x
          have hm := hsub (c, m) (List.mem_cons_self _ _)
          rw [staleLeavesLoop_cons, ih (c, m) hm (d + 1) k (by omega) (hf.2 _ hm),
            ihl (fun y hy => hsub y (List.mem_cons_of_mem _ hy))]
      exact hloop cs (fun y hy => hy)

/-! ## Iteration order -/

theorem getWordsLoop_perm (cs cs1 : List (Char × TrieNode)) (cur : Str) (h : cs.Perm cs1) :
    (getWordsLoop cs cur).Perm (getWordsLoop cs1 cur) := by
  induction h with
  | nil => exact List.Perm.refl _
  | cons x _ ih =>
    obtain ⟨c, n⟩ := x
    rw [getWordsLoop_cons, getWordsLoop_cons]
    exact List.Perm.append_left _ ih
  | swap x y l =>
    obtain ⟨c, n⟩ := x
    obtain ⟨d, m⟩ := y
    simp only [getWordsLoop_cons, ← List.append_assoc]
    exact List.Perm.append_right _ List.perm_append_comm
  | trans _ _ ih1 ih2 => exact ih1.trans ih2

/-- Another iteration order enumerates the same words, each as often as before. -/
theorem getWords_reordered (n n1 : TrieNode) (h : Reordered n n1) :
    ∀ cur : Str, (getWordsRecursively n cur).Perm (getWordsRecursively n1 cur) := by
  induction h with
  | atNode cs cs1 hp =>
    intro cur
    by_cases h5 : cur.length = 5
    · rw [getWordsRecursively_of_eq _ _ h5, getWordsRecursively_of_eq _ _ h5]
    · rw [getWordsRecursively_of_ne _ _ h5, getWordsRecursively_of_ne _ _ h5]
      exact getWordsLoop_perm cs cs1 cur hp
  | inChild l r c n n1 _ ih =>
    intro cur
    by_cases h5 : cur.length = 5
    · rw [getWordsRecursively_of_eq _ _ h5, getWordsRecursively_of_eq _ _ h5]
    · rw [getWordsRecursively_of_ne _ _ h5, getWordsRecursively_of_ne _ _ h5,
        getWordsLoop_append, getWordsLoop_append, getWordsLoop_cons, getWordsLoop_cons]
      exact List.Perm.append_left _ (List.Perm.append_right _ (ih _))

theorem bounded_reordered (n n1 : TrieNode) (h : Reordered n n1) :
    ∀ k : Nat, bounded n k = true → bounded n1 k = true := by
  induction h with
  | atNode cs cs1 hp =>
    intro k hb
    cases k with
    | zero =>
      rw [bounded] at hb ⊢
      have hcs : cs = [] := by simpa using hb
      subst hcs
      rw [List.nil_perm.1 hp]; rfl
    | succ k =>
      rw [bounded, boundedLoop_iff] at hb ⊢
      exact fun x hx => hb x (hp.mem_iff.2 hx)
  | inChild l r c n n1 _ ih =>
    intro k hb
    cases k with
    | zero => rw [bounded] at hb; simp at hb
    | succ k =>
      rw [bounded, boundedLoop_iff] at hb ⊢
      intro x hx
      rcases List.mem_append.1 hx with hx | hx
      · exact hb x (List.mem_append_left _ hx)
      · rcases List.mem_cons.1 hx with hx | hx
        · subst hx; exact ih k (hb (c, n) (by simp))
        · exact hb x (by simp [hx])

theorem fullDepth_reordered (n n1 : TrieNode) (h : Reordered n n1) :
    ∀ k : Nat, fullDepth n k = true → fullDepth n1 k = true := by
  induction h with
  | atNode cs cs1 hp =>
    intro k hb
    cases k with
    | zero =>
      rw [fullDepth] at hb ⊢
      have hcs : cs = [] := by simpa using hb
      subst hcs
      rw [List.nil_perm.1 hp]; rfl
    | succ k =>
      rw [fullDepth, Bool.and_eq_true, fullDepthLoop_iff] at hb ⊢
      refine ⟨?_, fun x hx => hb.2 x (hp.mem_iff.2 hx)⟩
      have hne : cs ≠ [] := by simpa using hb.1
      have hne1 : cs1 ≠ [] := fun h0 => hne (by subst h0; exact List.perm_nil.1 hp)
      simpa using hne1
  | inChild l r c n n1 _ ih =>
    intro k hb
    cases k with
    | zero => rw [fullDepth] at hb; simp at hb
    | succ k =>
      rw [fullDepth, Bool.and_eq_true, fullDepthLoop_iff] at hb ⊢
      refine ⟨by simp, ?_⟩
      intro x hx
      rcases List.mem_append.1 hx with hx | hx
      · exact hb.2 x (List.mem_append_left _ hx)
      · rcases List.mem_cons.1 hx with hx | hx
        · subst hx; exact ih k (hb.2 (c, n) (by simp))
        · exact hb.2 x (by simp [hx])

theorem uniqueKeys_reordered (n n1 : TrieNode) (h : Reordered n n1) :
    uniqueKeys n = true → uniqueKeys n1 = true := by
  induction h with
  | atNode cs cs1 hp =>
    intro hu
    rw [uniqueKeys_mk] at hu ⊢
    exact ⟨(hp.map Prod.fst).nodup_iff.1 hu.1, fun x hx => hu.2 x (hp.mem_iff.2 hx)⟩
  | inChild l r c n n1 _ ih =>
    intro hu
    rw [uniqueKeys_mk] at hu ⊢
    refine ⟨by simpa using hu.1, ?_⟩
    intro x hx
    rcases List.mem_append.1 hx with hx | hx
    · exact hu.2 x (List.mem_append_left _ hx)
    · rcases List.mem_cons.1 hx with hx | hx
      · subst hx; exact ih (hu.2 (c, n) (by simp))
      · exact hu.2 x (by simp [hx])

theorem isEmpty_reordered (n n1 : TrieNode) (h : Reordered n n1) :
    n.children.isEmpty = true → n1.children.isEmpty = true := by
  cases h with
  | atNode cs cs1 hp =>
    intro he
    have hcs : cs = [] := by simpa [TrieNode.children] using he
    subst hcs
    rw [List.nil_perm.1 hp]; rfl
  | inChild l r c n n1 _ => intro he; simp [TrieNode.children] at he

/-! ## getFirstWord -/

/-- A descent that collects 5 letters ends on a word of the enumeration. -/
theorem firstDescent_mem : ∀ (n : TrieNode) (cur : Str),
    (firstDescent n cur).length = 5 → firstDescent n cur ∈ getWordsRecursively n cur := by
  intro n
  induction n using TrieNode.induct with
  | step cs ih =>
    intro cur h
    by_cases hlt : cur.length < 5
    · have h5 : cur.length ≠ 5 := by omega
      cases cs with
      | nil =>
        unfold firstDescent at h
        simp only [if_pos hlt] at h
        exact absurd h h5
      | cons x rest =>
        obtain ⟨c, next⟩ := x
        unfold firstDescent at h ⊢
        simp only [if_pos hlt] at h ⊢
        rw [getWordsRecursively_of_ne _ _ h5, getWordsLoop_cons]
        exact List.mem_append_left _ (ih (c, next) (List.mem_cons_self _ _) _ h)
    · unfold firstDescent at h ⊢
      simp only [if_neg hlt] at h ⊢
      rw [getWordsRecursively_of_eq _ _ h]
      exact List.mem_singleton.2 rfl

/-! ## Tries built by insert calls -/

theorem insertInv_new : InsertInv Trie.new :=
  ⟨by decide, Or.inl (by decide), by decide⟩

theorem insert_of_length_ne (t : Trie) (w : Str) (h : w.length ≠ 5) :
    t.insert w = (false, t) := by
  unfold Trie.insert; rw [if_pos h]

theorem insert_of_mem (t : Trie) (w : Str) (hu : uniqueKeys t.root = true)
    (h : w ∈ t.getAllWords) : t.insert w = (false, t) := by
  have h5 := length_of_mem_getAllWords t w h
  unfold Trie.insert
  rw [if_neg (by simp [h5]), insertFrom_present w t.root [] hu (by simpa using h)
    (by simpa using h5)]

theorem insert_of_not_mem (t : Trie) (w : Str) (h5 : w.length = 5)
    (h : w ∉ t.getAllWords) :
    (t.insert w).1 = true ∧ ((t.insert w).2.getAllWords).Perm (w :: t.getAllWords) := by
  unfold Trie.insert
  rw [if_neg (by simp [h5])]
  have := insertFrom_absent w t.root [] (by simpa using h) (by simpa using h5)
  simpa [Trie.getAllWords] using this

theorem fullDepth_insert_root (t : Trie) (w : Str) (h5 : w.length = 5)
    (hd : t.root.children.isEmpty = true ∨ fullDepth t.root 5 = true) :
    fullDepth (insertFrom w t.root).2 5 = true := by
  rcases hd with he | hf
  · obtain ⟨root⟩ := t
    cases root with
    | mk cs =>
      have hcs : cs = [] := by simpa [TrieNode.children] using he
      subst hcs
      cases w with
      | nil => simp at h5
      | cons c rest =>
        rw [insertFrom_cons_none c rest [] (by simp [findChild])]
        have := fullDepth_newChain (c :: rest)
        rw [h5, newChain] at this
        simpa using this
  · have := fullDepth_insertFrom w t.root (by rw [h5]; exact hf)
    rwa [h5] at this

/-- One `insert` call keeps the invariant and adds at most the inserted word. -/
theorem insertInv_insert (t : Trie) (w : Str) (hi : InsertInv t) :
    InsertInv (t.insert w).2 ∧
      ∀ x, x ∈ (t.insert w).2.getAllWords ↔ x ∈ t.getAllWords ∨ (x = w ∧ w.length = 5) := by
  by_cases h5 : w.length = 5
  · by_cases hmem : w ∈ t.getAllWords
    · rw [insert_of_mem t w hi.keys hmem]
      refine ⟨hi, fun x => ⟨Or.inl, ?_⟩⟩
      rintro (h | ⟨rfl, _⟩)
      · exact h
      · exact hmem
    · obtain ⟨_, hperm⟩ := insert_of_not_mem t w h5 hmem
      refine ⟨⟨?_, ?_, ?_⟩, ?_⟩
      · unfold Trie.insert; rw [if_neg (by simp [h5])]
        exact uniqueKeys_insertFrom w t.root hi.keys
      · unfold Trie.insert; rw [if_neg (by simp [h5])]
        exact Or.inr (fullDepth_insert_root t w h5 hi.depth)
      · exact hperm.nodup_iff.2 (List.nodup_cons.2 ⟨hmem, hi.nodup⟩)
      · intro x
        rw [hperm.mem_iff, List.mem_cons]
        constructor
        · rintro (h | h)
          · exact Or.inr ⟨h, h5⟩
          · exact Or.inl h
        · rintro (h | ⟨h, _⟩)
          · exact Or.inr h
          · exact Or.inl h
  · rw [insert_of_length_ne t w h5]
    refine ⟨hi, fun x => ⟨Or.inl, ?_⟩⟩
    rintro (h | ⟨_, h⟩)
    · exact h
    · exact absurd h h5

theorem insertInv_reorder (t : Trie) (root1 : TrieNode) (hi : InsertInv t)
    (hr : Reordered t.root root1) :
    InsertInv ⟨root1⟩ ∧ ∀ x, x ∈ (Trie.mk root1).getAllWords ↔ x ∈ t.getAllWords := by
  have hperm := getWords_reordered t.root root1 hr []
  refine ⟨⟨uniqueKeys_reordered _ _ hr hi.keys, ?_, hperm.nodup_iff.1 hi.nodup⟩,
    fun x => hperm.mem_iff.symm⟩
  rcases hi.depth with he | hf
  · exact Or.inl (isEmpty_reordered _ _ hr he)
  · exact Or.inr (fullDepth_reordered _ _ hr 5 hf)

/-- A trie built by the `insert` calls for `ws` satisfies the invariant and holds
exactly the words of `ws` that have 5 letters. -/
theorem insertBuilt_inv (ws : List Str) (t : Trie) (h : InsertBuilt ws t) :
    InsertInv t ∧ ∀ x, x ∈ t.getAllWords ↔ x ∈ ws ∧ x.length = 5 := by
  induction h with
  | new => exact ⟨insertInv_new, fun x => by simp [Trie.getAllWords, Trie.new,
      getWordsRecursively_of_ne, getWordsLoop_nil]⟩
  | insert ws t w _ ih =>
    obtain ⟨hinv, hmem⟩ := insertInv_insert t w ih.1
    refine ⟨hinv, fun x => ?_⟩
    rw [hmem, ih.2, List.mem_append, List.mem_singleton]
    constructor
    · rintro (⟨h1, h2⟩ | ⟨h1, h2⟩)
      · exact ⟨Or.inl h1, h2⟩
      · exact ⟨Or.inr h1, by rw [h1]; exact h2⟩
    · rintro ⟨h1 | h1, h2⟩
      · exact Or.inl ⟨h1, h2⟩
      · exact Or.inr ⟨h1, by rw [← h1]; exact h2⟩
  | reorder ws t root1 _ hr ih =>
    obtain ⟨hinv, hmem⟩ := insertInv_reorder t root1 ih.1 hr
    exact ⟨hinv, fun x => by rw [hmem, ih.2]⟩

theorem insertAll_append (t : Trie) (ws : List Str) (w : Str) :
    insertAll t (ws ++ [w]) = ((insertAll t ws).insert w).2 := by
  induction ws generalizing t with
  | nil => rfl
  | cons v ws ih => exact ih _

/-- The function `insertAll` is one way to build a trie by `insert` calls. -/
theorem insertBuilt_insertAll (ws : List Str) : InsertBuilt ws (insertAll Trie.new ws) := by
  induction ws using List.reverseRecOn with
  | nil => exact InsertBuilt.new
  | append_singleton ws w ih =>
    rw [insertAll_append]
    exact InsertBuilt.insert ws _ w ih

/-- With the invariant of `insert`, `size()` is the number of enumerated words. -/
theorem size_of_insertInv (t : Trie) (hi : InsertInv t) : t.size = t.getAllWords.length := by
  have hb : bounded t.root 5 = true := by
    rcases hi.depth with he | hf
    · obtain ⟨root⟩ := t
      cases root with
      | mk cs =>
        have hcs : cs = [] := by simpa [TrieNode.children] using he
        subst hcs; decide
    · exact bounded_of_fullDepth _ _ hf
  have hz : t.staleLeaves = 0 := by
    obtain ⟨root⟩ := t
    cases root with
    | mk cs =>
      rcases hi.depth with he | hf
      · have hcs : cs = [] := by simpa [TrieNode.children] using he
        subst hcs; decide
      · have := staleLeaves_of_fullDepth (.mk cs) 0 5 (by simp) hf
        rw [fullDepth, Bool.and_eq_true] at hf
        rw [staleLeaves, if_neg (by simpa using hf.1)] at this
        simpa [Trie.staleLeaves, TrieNode.children] using this
  rw [size_eq_of_bounded t hb, hz]; rfl

/-! ## Reachable states -/

/-- In a reachable state no path has more than 5 edges. -/
theorem bounded_of_reachable (t : Trie) (h : Reachable t) : bounded t.root 5 = true := by
  induction h with
  | new => decide
  | insert t w _ ih =>
    unfold Trie.insert
    split
    · exact ih
    · rename_i h5
      have h5 : w.length = 5 := by simpa using h5
      have := bounded_insertFrom w t.root (by rw [h5]; exact ih)
      rwa [h5] at this
  | filter oob t k g p _ ih =>
    unfold Trie.filter
    split
    · exact ih
    · exact bounded_filterRecursively oob g p t.root [] 5 (by simp) ih
  | reorder t root1 _ hr ih => exact bounded_reordered _ _ hr 5 ih

/-! ## The claims -/

/-- C1, soundness of `filter`: for every trie (in particular every trie built by
`insert` calls) and every guess and pattern of length 5, each word of `getAllWords()`
after `filter(guess, pattern)` was stored before the call and satisfies `matches`: the
flag computed by the code is `true` for it, and at each of the 5 positions a `g` means
the word has the guessed letter there, a `y` means it has another letter there and the
guessed letter somewhere, a `b` means the guessed letter occurs nowhere in it. -/
theorem filter_sound (oob : Str → Nat → Char) (t : Trie) (trie_counter : Int)
    (guess pattern : Str) (hg : guess.length = 5) (hp : pattern.length = 5) (w : Str)
    (hw : w ∈ (t.filter oob trie_counter guess pattern).2.1.getAllWords) :
    w ∈ t.getAllWords ∧ wordMatches oob w guess pattern = true ∧
      ∀ i, i < 5 → ∃ c g q, w[i]? = some c ∧ guess[i]? = some g ∧ pattern[i]? = some q ∧
        (q = 'g' → c = g) ∧ (q = 'y' → c ≠ g ∧ g ∈ w) ∧ (q = 'b' → g ∉ w) := by
  rw [getAllWords_filter oob t trie_counter guess pattern hg hp, List.mem_filter] at hw
  exact ⟨hw.1, hw.2, (wordMatches_iff oob w guess pattern
    (length_of_mem_getAllWords t w hw.1) hg hp).1 hw.2⟩

/-- Witness for C1: `thing` survives `filter("swing", "bbggg")` in the trie of test4. -/
theorem filter_sound_witness :
    "thing".toList ∈ (test4Trie.filter oobNul 0 "swing".toList "bbggg".toList).2.1.getAllWords ∧
      "thing".toList ∈ test4Trie.getAllWords ∧
      wordMatches oobNul "thing".toList "swing".toList "bbggg".toList = true :=
  have h := filter_sound oobNul test4Trie 0 "swing".toList "bbggg".toList (by decide)
    (by decide) "thing".toList (by decide)
  ⟨by decide, h.1, h.2.1⟩

/-- C2, completeness of `filter`: for every trie (in particular every trie built by
`insert` calls) and every guess and pattern of length 5, a word stored before
`filter(guess, pattern)` that satisfies `matches` (as the flag of the code, or as the
three feedback rules at the 5 positions) is still in `getAllWords()` afterwards, and a
word that was removed fails `matches`. -/
theorem filter_complete (oob : Str → Nat → Char) (t : Trie) (trie_counter : Int)
    (guess pattern : Str) (hg : guess.length = 5) (hp : pattern.length = 5) (w : Str)
    (hw : w ∈ t.getAllWords) :
    (wordMatches oob w guess pattern = true →
        w ∈ (t.filter oob trie_counter guess pattern).2.1.getAllWords) ∧
      ((∀ i, i < 5 → ∃ c g q, w[i]? = some c ∧ guess[i]? = some g ∧ pattern[i]? = some q ∧
          (q = 'g' → c = g) ∧ (q = 'y' → c ≠ g ∧ g ∈ w) ∧ (q = 'b' → g ∉ w)) →
        w ∈ (t.filter oob trie_counter guess pattern).2.1.getAllWords) ∧
      (w ∉ (t.filter oob trie_counter guess pattern).2.1.getAllWords →
        wordMatches oob w guess pattern = false) := by
  rw [getAllWords_filter oob t trie_counter guess pattern hg hp]
  have h5 := length_of_mem_getAllWords t w hw
  refine ⟨fun hm => List.mem_filter.2 ⟨hw, hm⟩, fun hr => List.mem_filter.2
    ⟨hw, (wordMatches_iff oob w guess pattern h5 hg hp).2 hr⟩, fun hn => ?_⟩
  cases hm : wordMatches oob w guess pattern with
  | false => rfl
  | true => exact absurd (List.mem_filter.2 ⟨hw, hm⟩) hn

/-- Witness for C2: `cling` matches `("swing", "bbggg")` and is kept in the trie of
test4. -/
theorem filter_complete_witness :
    "cling".toList ∈ test4Trie.getAllWords ∧
      wordMatches oobNul "cling".toList "swing".toList "bbggg".toList = true ∧
      "cling".toList ∈ (test4Trie.filter oobNul 0 "swing".toList "bbggg".toList).2.1.getAllWords :=
  have h := filter_complete oobNul test4Trie 0 "swing".toList "bbggg".toList (by decide)
    (by decide) "cling".toList (by decide)
  ⟨by decide, by decide, h.1 (by decide)⟩

/-- C3: when the guess or the pattern does not have length 5, `filter(guess, pattern)`
leaves the trie as it is: same node structure, same `getAllWords()`, same `size()`. -/
theorem filter_invalid_length_unchanged (oob : Str → Nat → Char) (t : Trie)
    (trie_counter : Int) (guess pattern : Str)
    (h : guess.length ≠ 5 ∨ pattern.length ≠ 5) :
    (t.filter oob trie_counter guess pattern).2.1 = t ∧
      (t.filter oob trie_counter guess pattern).2.1.getAllWords = t.getAllWords ∧
      (t.filter oob trie_counter guess pattern).2.1.size = t.size := by
  have ht : (t.filter oob trie_counter guess pattern).2.1 = t := by
    unfold Trie.filter; rw [if_pos h]
  rw [ht]; exact ⟨rfl, rfl, rfl⟩

/-- Witness for C3: `filter("app", "bbbbb")` of test5 leaves apple and ipple in place. -/
theorem filter_invalid_length_unchanged_witness :
    (test5Trie.filter oobNul 0 "app".toList "bbbbb".toList).2.1 = test5Trie ∧
      (test5Trie.filter oobNul 0 "app".toList "bbbbb".toList).2.1.size = 2 :=
  have h := filter_invalid_length_unchanged oobNul test5Trie 0 "app".toList "bbbbb".toList
    (Or.inl (by decide))
  ⟨h.1, h.2.2.trans (by decide)⟩

/-- C4: `filter(guess, pattern)` returns `true` exactly when the guess and the pattern
both have length 5, whatever the trie holds and however many words the pass removes. -/
theorem filter_returns_true_iff (oob : Str → Nat → Char) (t : Trie) (trie_counter : Int)
    (guess pattern : Str) :
    (t.filter oob trie_counter guess pattern).1 = true ↔
      guess.length = 5 ∧ pattern.length = 5 := by
  unfold Trie.filter
  by_cases h : guess.length ≠ 5 ∨ pattern.length ≠ 5
  · rw [if_pos h]
    constructor
    · intro hf; cases hf
    · rintro ⟨h1, h2⟩
      rcases h with h | h
      · exact absurd h1 h
      · exact absurd h2 h
  · rw [if_neg h]
    simp only [true_iff]
    constructor
    · by_contra h1; exact h (Or.inl h1)
    · by_contra h2; exact h (Or.inr h2)

/-- C5: for every trie (in particular every trie built by `insert` calls) and every
word `w` of length 5 that `getAllWords()` does not list, `insert(w)` returns `true` and
afterwards `getAllWords()` lists `w` exactly once. -/
theorem insert_new_word (t : Trie) (w : Str) (h5 : w.length = 5)
    (hw : w ∉ t.getAllWords) :
    (t.insert w).1 = true ∧ (t.insert w).2.getAllWords.count w = 1 := by
  obtain ⟨hret, hperm⟩ := insert_of_not_mem t w h5 hw
  refine ⟨hret, ?_⟩
  have hc : (t.insert w).2.getAllWords.count w = (w :: t.getAllWords).count w := by
    simp only [List.count]
    exact hperm.countP_eq _
  rw [hc, List.count_cons_self, List.count_eq_zero_of_not_mem hw]

/-- Witness for C5: `grape` is new to the trie holding apple and ipple. -/
theorem insert_new_word_witness :
    "grape".toList ∉ test5Trie.getAllWords ∧ (test5Trie.insert "grape".toList).1 = true ∧
      (test5Trie.insert "grape".toList).2.getAllWords.count "grape".toList = 1 :=
  ⟨by decide, insert_new_word test5Trie "grape".toList (by decide) (by decide)⟩

/-- C6: for every trie (its maps holding each key once, as every `unordered_map` does)
and every word `w` that `getAllWords()` lists, `insert(w)` returns `false` and leaves the
trie as it is: same node structure, same `getAllWords()`, same `size()`. -/
theorem insert_present_word (t : Trie) (w : Str) (hu : uniqueKeys t.root = true)
    (hw : w ∈ t.getAllWords) :
    (t.insert w).1 = false ∧ (t.insert w).2 = t ∧
      (t.insert w).2.getAllWords = t.getAllWords ∧ (t.insert w).2.size = t.size := by
  rw [insert_of_mem t w hu hw]
  exact ⟨rfl, rfl, rfl, rfl⟩

/-- Witness for C6: a second `insert("apple")` in the trie of test5. -/
theorem insert_present_word_witness :
    "apple".toList ∈ test5Trie.getAllWords ∧ (test5Trie.insert "apple".toList).1 = false ∧
      (test5Trie.insert "apple".toList).2 = test5Trie :=
  have h := insert_present_word test5Trie "apple".toList (by decide) (by decide)
  ⟨by decide, h.1, h.2.1⟩

/-- C7: for every trie and every string `w` whose length is not 5, the empty string
included, `insert(w)` returns `false` and leaves the trie as it is: same node structure,
same `getAllWords()`, same `size()`. -/
theorem insert_wrong_length (t : Trie) (w : Str) (h : w.length ≠ 5) :
    (t.insert w).1 = false ∧ (t.insert w).2 = t ∧
      (t.insert w).2.getAllWords = t.getAllWords ∧ (t.insert w).2.size = t.size := by
  rw [insert_of_length_ne t w h]
  exact ⟨rfl, rfl, rfl, rfl⟩

/-- Witness for C7: `insert("pineapple")` in the trie of test5. -/
theorem insert_wrong_length_witness :
    (test5Trie.insert "pineapple".toList).1 = false ∧
      (test5Trie.insert "pineapple".toList).2.size = 2 :=
  have h := insert_wrong_length test5Trie "pineapple".toList (by decide)
  ⟨h.1, h.2.2.2.trans (by decide)⟩

/-- C8: for every trie (in particular every state reachable by `insert` and `filter`
calls), `getFirstWord()` returns the empty string exactly when `getAllWords()` is empty,
and when `getAllWords()` is not empty the returned string has length 5 and is one of its
elements. -/
theorem getFirstWord_spec (t : Trie) :
    (t.getFirstWord = [] ↔ t.getAllWords = []) ∧
      (t.getAllWords ≠ [] → t.getFirstWord.length = 5 ∧ t.getFirstWord ∈ t.getAllWords) := by
  have key : (t.getFirstWord.length = 5 ∧ t.getFirstWord ∈ t.getAllWords) ∨
      (t.getFirstWord = [] ∧ t.getAllWords = []) := by
    unfold Trie.getFirstWord
    simp only []
    by_cases hd : (firstDescent t.root []).length = 5
    · rw [if_pos hd]
      exact Or.inl ⟨hd, firstDescent_mem t.root [] hd⟩
    · rw [if_neg hd]
      cases hf : t.getAllWords.find? (fun w => decide (w.length = 5)) with
      | some w =>
        refine Or.inl ⟨?_, List.mem_of_find?_eq_some hf⟩
        simpa using List.find?_some hf
      | none =>
        refine Or.inr ⟨rfl, ?_⟩
        rw [List.find?_eq_none] at hf
        rw [List.eq_nil_iff_forall_not_mem]
        intro w hw
        exact hf w hw (by simpa using length_of_mem_getAllWords t w hw)
  rcases key with ⟨hl, hm⟩ | ⟨he, ha⟩
  · have hne : t.getFirstWord ≠ [] := by
      intro h0; rw [h0] at hl; cases hl
    have hna : t.getAllWords ≠ [] := List.ne_nil_of_mem hm
    exact ⟨⟨fun h => absurd h hne, fun h => absurd h hna⟩, fun _ => ⟨hl, hm⟩⟩
  · exact ⟨⟨fun _ => ha, fun _ => he⟩, fun h => absurd ha h⟩

/-- C9: for every finite sequence `ws` of `insert` calls applied to a new trie, `size()`
is the number of distinct strings of length 5 in `ws`, and so is the number of words in
`getAllWords()`. -/
theorem size_insertBuilt (ws : List Str) (t : Trie) (h : InsertBuilt ws t) :
    t.size = ((ws.filter (fun w => decide (w.length = 5))).dedup).length ∧
      t.getAllWords.length = ((ws.filter (fun w => decide (w.length = 5))).dedup).length := by
  obtain ⟨hinv, hmem⟩ := insertBuilt_inv ws t h
  have hperm : t.getAllWords.Perm ((ws.filter (fun w => decide (w.length = 5))).dedup) := by
    rw [List.perm_ext_iff_of_nodup hinv.nodup (List.nodup_dedup _)]
    intro x
    rw [hmem, List.mem_dedup, List.mem_filter]
    simp
  rw [size_of_insertInv t hinv]
  exact ⟨hperm.length_eq, hperm.length_eq⟩

/-- Witness for C9: the 16 `insert` calls of `test3Calls` leave 7 words. -/
theorem size_insertBuilt_witness :
    InsertBuilt test3Calls (insertAll Trie.new test3Calls) ∧
      (insertAll Trie.new test3Calls).size = 7 ∧
      (insertAll Trie.new test3Calls).getAllWords.length = 7 :=
  have h := size_insertBuilt test3Calls (insertAll Trie.new test3Calls)
    (insertBuilt_insertAll test3Calls)
  ⟨insertBuilt_insertAll test3Calls, h.1.trans (by decide), h.2.trans (by decide)⟩

/-- The state `staleTrie` is reachable: one `insert`, one `filter`. -/
theorem staleTrie_reachable : Reachable staleTrie :=
  Reachable.filter oobNul _ 0 _ _ (Reachable.insert _ _ Reachable.new)

/-- C10 fails on the code: after `insert("abcde")` and `filter("ezzzz", "bbbbb")` on a
new trie, a state reached by one `insert` and one `filter` call, `size()` is 1 while
`getAllWords()` is empty; the leaf counted is the emptied node of `abcd` that the prune
pass left behind. -/
theorem size_ne_words_staleTrie :
    Reachable staleTrie ∧ staleTrie.size = 1 ∧ staleTrie.getAllWords = [] ∧
      staleTrie.size ≠ staleTrie.getAllWords.length :=
  ⟨Reachable.filter oobNul _ 0 _ _ (Reachable.insert _ _ Reachable.new),
    by decide, by decide, by decide⟩

/-! ## Matching does not depend on out-of-range reads for 5-letter strings -/

theorem wordMatches_oob (oob oob1 : Str → Nat → Char) (w guess pattern : Str)
    (hw : w.length = 5) (hg : guess.length = 5) (hp : pattern.length = 5) :
    wordMatches oob w guess pattern = wordMatches oob1 w guess pattern := by
  rw [Bool.eq_iff_iff, wordMatches_iff oob w guess pattern hw hg hp,
    wordMatches_iff oob1 w guess pattern hw hg hp]

/-! ## The frame of insert -/

/-- The two outcomes of the loops of `insert`: `false` and the node as it was, or
`true` and one more word below the node. -/
theorem insertFrom_cases : ∀ (ls : List Char) (n : TrieNode) (cur : Str),
    cur.length + ls.length = 5 →
    ((insertFrom ls n).1 = false ∧ (insertFrom ls n).2 = n) ∨
      ((insertFrom ls n).1 = true ∧
        (getWordsRecursively (insertFrom ls n).2 cur).Perm
          ((cur ++ ls) :: getWordsRecursively n cur)) := by
  intro ls
  induction ls with
  | nil => intro n cur _; exact Or.inl ⟨by rw [insertFrom_nil], by rw [insertFrom_nil]⟩
  | cons c rest ih =>
    intro n cur hlen
    cases n with
    | mk cs =>
      have h5 : cur.length ≠ 5 := by simp at hlen; omega
      have hlen1 : (cur ++ [c]).length + rest.length = 5 := by simp at hlen ⊢; omega
      cases hfind : findChild cs c with
      | none =>
        rw [insertFrom_cons_none c rest cs hfind]
        refine Or.inr ⟨rfl, ?_⟩
        rw [getWordsRecursively_of_ne _ _ h5, getWordsRecursively_of_ne _ _ h5,
          getWordsLoop_append, getWordsLoop_cons, getWordsLoop_nil,
          getWords_newChain rest (cur ++ [c]) hlen1]
        simp only [List.append_assoc, List.singleton_append, List.append_nil]
        exact List.perm_append_singleton _ _
      | some child =>
        obtain ⟨l, r, hcs, hset⟩ := findChild_eq_some cs c child hfind
        rw [insertFrom_cons_some c rest cs child hfind]
        rcases ih child (cur ++ [c]) hlen1 with ⟨hret, hsame⟩ | ⟨hret, hperm⟩
        · refine Or.inl ⟨hret, ?_⟩
          simp only [hsame, setChild_self cs c child hfind]
        · refine Or.inr ⟨hret, ?_⟩
          simp only [List.append_assoc, List.singleton_append] at hperm
          rw [getWordsRecursively_of_ne _ _ h5, getWordsRecursively_of_ne _ _ h5, hset, hcs,
            getWordsLoop_append, getWordsLoop_append, getWordsLoop_cons, getWordsLoop_cons]
          refine ((List.Perm.append_left _ (List.Perm.append_right _ hperm))).trans ?_
          simp only [List.cons_append]
          exact List.perm_middle

theorem insert_cases (t : Trie) (w : Str) :
    ((t.insert w).1 = false ∧ (t.insert w).2 = t) ∨
      ((t.insert w).1 = true ∧ (t.insert w).2.getAllWords.Perm (w :: t.getAllWords)) := by
  by_cases h5 : w.length = 5
  · unfold Trie.insert
    rw [if_neg (by simp [h5])]
    rcases insertFrom_cases w t.root [] (by simpa using h5) with ⟨h1, h2⟩ | ⟨h1, h2⟩
    · exact Or.inl ⟨h1, by simp only [h2]⟩
    · exact Or.inr ⟨h1, by simpa [Trie.getAllWords] using h2⟩
  · rw [insert_of_length_ne t w h5]
    exact Or.inl ⟨rfl, rfl⟩

/-! ## The list-based filter -/

theorem listStep_eq (oob : Str → Nat → Char) (w g p : Str) (i : Nat) :
    listStep oob w g p i = matchStep oob w g p i := by
  unfold listStep matchStep
  simp only []
  by_cases h1 : charAt oob p i = 'g'
  · by_cases h2 : charAt oob w i = charAt oob g i <;> simp [h1, h2]
  · by_cases h3 : charAt oob p i = 'y'
    · by_cases h2 : charAt oob w i = charAt oob g i <;>
        by_cases h4 : found w (charAt oob g i) = true <;> simp [h1, h3, h2, h4]
    · by_cases h5 : charAt oob p i = 'b'
      · by_cases h4 : found w (charAt oob g i) = true <;> simp [h1, h3, h5, h4]
      · simp [h1, h3, h5]

/-- The list returned by `filterWordList`: the words of the list that pass the matching
loop of the trie. -/
theorem filterWordList_eq (oob : Str → Nat → Char) (ws : List Str) (guess pattern : Str)
    (list_counter : Int) :
    (filterWordList oob ws guess pattern list_counter).1
      = ws.filter (fun w => wordMatches oob w guess pattern) := by
  unfold filterWordList wordMatches
  have h : (fun word => (List.range 5).all (listStep oob word guess pattern))
      = (fun w => (List.range 5).all (matchStep oob w guess pattern)) := by
    funext w
    congr 1
    funext i
    exact listStep_eq oob w guess pattern i
  simp only [h]

/-! ## Detaching a child of the root -/

theorem head?_of_mem_getWords (n : TrieNode) (k : Char) (w : Str)
    (h : w ∈ getWordsRecursively n ([] ++ [k])) : w.head? = some k := by
  obtain ⟨s, hs⟩ := prefix_of_mem_getWords n _ w h
  rw [← hs]; rfl

/-- The words of the trie after the root key `c` has been erased: the words before that
do not start with `c`. -/
theorem getWordsLoop_eraseKey (c : Char) : ∀ cs : List (Char × TrieNode),
    getWordsLoop (eraseKey cs c) []
      = (getWordsLoop cs []).filter (fun w => !decide (w.head? = some c)) := by
  intro cs
  induction cs with
  | nil => simp [eraseKey, getWordsLoop_nil]
  | cons x rest ih =>
    obtain ⟨k, n⟩ := x
    rw [getWordsLoop_cons, List.filter_append, ← ih]
    by_cases hk : k = c
    · subst hk
      have hnil : (getWordsRecursively n ([] ++ [k])).filter
          (fun w => !decide (w.head? = some k)) = [] := by
        rw [List.filter_eq_nil_iff]
        intro w hw
        simp [head?_of_mem_getWords n k w hw]
      rw [hnil]
      simp [eraseKey]
    · have hall : (getWordsRecursively n ([] ++ [k])).filter
          (fun w => !decide (w.head? = some c)) = getWordsRecursively n ([] ++ [k]) := by
        rw [List.filter_eq_self]
        intro w hw
        simp [head?_of_mem_getWords n k w hw, hk]
      rw [hall]
      simp only [eraseKey, List.filter_cons, hk, ne_eq, not_false_eq_true, decide_True, if_true]
      rw [getWordsLoop_cons]

theorem getAllWords_detach (t : Trie) (c : Char) :
    (t.detach c).getAllWords
      = t.getAllWords.filter (fun w => !decide (w.head? = some c)) := by
  obtain ⟨root⟩ := t
  cases root with
  | mk cs =>
    simp only [Trie.detach, Trie.getAllWords, TrieNode.children]
    rw [getWordsRecursively_of_ne _ _ (by simp), getWordsRecursively_of_ne _ _ (by simp)]
    exact getWordsLoop_eraseKey c cs

/-- The edit of test3 keeps what `insert` maintains. -/
theorem insertInv_detach (t : Trie) (c : Char) (hi : InsertInv t) :
    InsertInv (t.detach c) := by
  have hwords := getAllWords_detach t c
  obtain ⟨root⟩ := t
  cases root with
  | mk cs =>
    have hk := hi.keys
    have hd := hi.depth
    simp only [TrieNode.children] at hd
    rw [uniqueKeys_mk] at hk
    refine ⟨?_, ?_, ?_⟩
    · simp only [Trie.detach, TrieNode.children]
      rw [uniqueKeys_mk]
      refine ⟨?_, fun x hx => hk.2 x (List.mem_of_mem_filter hx)⟩
      exact List.Nodup.sublist (List.Sublist.map _ (List.filter_sublist _)) hk.1
    · simp only [Trie.detach, TrieNode.children]
      rcases hd with he | hf
      · have hcs : cs = [] := by simpa using he
        subst hcs
        exact Or.inl (by simp [eraseKey])
      · by_cases hemp : (eraseKey cs c).isEmpty = true
        · exact Or.inl hemp
        · right
          rw [fullDepth, Bool.and_eq_true, fullDepthLoop_iff] at hf ⊢
          exact ⟨by simpa using hemp, fun x hx => hf.2 x (List.mem_of_mem_filter hx)⟩
    · rw [hwords]
      exact hi.nodup.filter _

/-! ## The colours of the game loop -/

theorem colors_length (oob : Str → Nat → Char) (guess targetWord : Str) :
    (colors oob guess targetWord).length = 5 := by
  simp [colors]

/-- The target word passes the matching loop for the colours computed against it. -/
theorem wordMatches_colors (oob oob1 : Str → Nat → Char) (guess targetWord : Str)
    (hg : guess.length = 5) (ht : targetWord.length = 5) :
    wordMatches oob1 targetWord guess (colors oob guess targetWord) = true := by
  rw [wordMatches_iff oob1 targetWord guess _ ht hg (colors_length oob guess targetWord)]
  intro i hi
  obtain ⟨c, hc⟩ := exists_getElem?_of_lt targetWord i (ht ▸ hi)
  obtain ⟨g, hgc⟩ := exists_getElem?_of_lt guess i (hg ▸ hi)
  have hq : (colors oob guess targetWord)[i]? = some
      (if g = c then 'g' else if found targetWord g = true then 'y' else 'b') := by
    simp only [colors, List.getElem?_map, List.getElem?_range hi, Option.map_some',
      charAt_of_getElem? oob _ _ _ hc, charAt_of_getElem? oob _ _ _ hgc]
  refine ⟨c, g, _, hc, hgc, hq, ?_, ?_, ?_⟩
  · intro h
    by_cases hgc2 : g = c
    · exact hgc2.symm
    · by_cases hf : found targetWord g = true <;> simp [hgc2, hf] at h
  · intro h
    by_cases hgc2 : g = c
    · simp [hgc2] at h
    · by_cases hf : found targetWord g = true
      · exact ⟨fun hcg => hgc2 hcg.symm, (found_iff _ _).1 hf⟩
      · simp [hgc2, hf] at h
  · intro h
    by_cases hgc2 : g = c
    · simp [hgc2] at h
    · by_cases hf : found targetWord g = true
      · simp [hgc2, hf] at h
      · exact fun hmem => hf ((found_iff _ _).2 hmem)

theorem length_filter_add_length_filter_not (p : Str → Bool) (l : List Str) :
    (l.filter (fun a => !p a)).length + (l.filter p).length = l.length := by
  induction l with
  | nil => rfl
  | cons a l ih =>
    by_cases h : p a = true
    · simp only [List.filter_cons, h, Bool.not_true, Bool.false_eq_true, if_false, if_true,
        List.length_cons]
      omega
    · have h0 : p a = false := by simpa using h
      simp only [List.filter_cons, h0, Bool.not_false, Bool.false_eq_true, if_false, if_true,
        List.length_cons]
      omega

/-- C11 fails on the code: in the trie built by `insert("stack")` no word satisfies
`matches` for `filter("krubi", "bbbbb")`, yet after the call the root still has a child;
the childless node of `stac` is left behind, `size()` is 1 and `getAllWords()` is
empty. -/
theorem filter_leaves_emptied_branch :
    InsertBuilt ["stack".toList] stackTrie ∧
      (∀ w ∈ stackTrie.getAllWords,
        wordMatches oobNul w "krubi".toList "bbbbb".toList = false) ∧
      (stackTrie.filter oobNul 0 "krubi".toList "bbbbb".toList).2.1.root.children.isEmpty
        = false ∧
      (stackTrie.filter oobNul 0 "krubi".toList "bbbbb".toList).2.1.size = 1 ∧
      (stackTrie.filter oobNul 0 "krubi".toList "bbbbb".toList).2.1.getAllWords = [] :=
  ⟨InsertBuilt.insert [] Trie.new "stack".toList InsertBuilt.new,
    by decide, by decide, by decide, by decide⟩

/-- C12, idempotence of `filter`: for every trie (in particular every trie built by
`insert` calls) and every guess and pattern of length 5, when every stored word satisfies
`matches` the call `filter(guess, pattern)` leaves `getAllWords()` as it is, and a second
`filter(guess, pattern)` right after a first one leaves `getAllWords()` as the first one
left it. -/
theorem filter_idempotent (oob oob1 : Str → Nat → Char) (t : Trie)
    (trie_counter trie_counter1 : Int) (guess pattern : Str)
    (hg : guess.length = 5) (hp : pattern.length = 5) :
    ((∀ w ∈ t.getAllWords, wordMatches oob w guess pattern = true) →
        (t.filter oob trie_counter guess pattern).2.1.getAllWords = t.getAllWords) ∧
      ((t.filter oob trie_counter guess pattern).2.1.filter oob1 trie_counter1
          guess pattern).2.1.getAllWords
        = (t.filter oob trie_counter guess pattern).2.1.getAllWords := by
  constructor
  · intro hall
    rw [getAllWords_filter oob t trie_counter guess pattern hg hp, List.filter_eq_self]
    exact hall
  · rw [getAllWords_filter oob1 _ trie_counter1 guess pattern hg hp,
      getAllWords_filter oob t trie_counter guess pattern hg hp, List.filter_eq_self]
    intro w hw
    rw [List.mem_filter] at hw
    rw [wordMatches_oob oob1 oob w guess pattern (length_of_mem_getAllWords t w hw.1) hg hp]
    exact hw.2

/-- Witness for C12: `filter("swing", "bbggg")` twice on the trie of test4. -/
theorem filter_idempotent_witness :
    ((test4Trie.filter oobNul 0 "swing".toList "bbggg".toList).2.1.filter oobNul 1
        "swing".toList "bbggg".toList).2.1.getAllWords
      = (test4Trie.filter oobNul 0 "swing".toList "bbggg".toList).2.1.getAllWords :=
  (filter_idempotent oobNul oobNul test4Trie 0 1 "swing".toList "bbggg".toList
    (by decide) (by decide)).2

/-- C13: a freshly constructed trie has `size()` 0, `getFirstWord()` empty and
`getAllWords()` empty. -/
theorem new_trie_empty :
    Trie.new.size = 0 ∧ Trie.new.getFirstWord = [] ∧ Trie.new.getAllWords = [] :=
  ⟨by decide, by decide, by decide⟩

/-- C14, frame of `insert`: for every trie and every string `w`, each word of
`getAllWords()` before `insert(w)` is still there afterwards, a word there afterwards was
there before or is `w`, a call that returns `true` leaves exactly the words before and
`w` once more, and a call that returns `false` leaves the trie as it was. -/
theorem insert_frame (t : Trie) (w : Str) :
    (∀ x ∈ t.getAllWords, x ∈ (t.insert w).2.getAllWords) ∧
      (∀ x ∈ (t.insert w).2.getAllWords, x ∈ t.getAllWords ∨ x = w) ∧
      ((t.insert w).1 = true → (t.insert w).2.getAllWords.Perm (w :: t.getAllWords)) ∧
      ((t.insert w).1 = false → (t.insert w).2 = t) := by
  rcases insert_cases t w with ⟨hret, hsame⟩ | ⟨hret, hperm⟩
  · refine ⟨fun x hx => by rw [hsame]; exact hx, fun x hx => Or.inl (by rwa [hsame] at hx),
      fun h => ?_, fun _ => hsame⟩
    rw [hret] at h; cases h
  · refine ⟨fun x hx => hperm.mem_iff.2 (List.mem_cons_of_mem _ hx), fun x hx => ?_,
      fun _ => hperm, fun h => ?_⟩
    · rcases List.mem_cons.1 (hperm.mem_iff.1 hx) with h | h
      · exact Or.inr h
      · exact Or.inl h
    · rw [hret] at h; cases h

/-- C15 fails on the code: in `filter("swing", "bbggg")` on the trie of test4 the loop
that re-checks a childless child indexes path words at positions that are not below their
length: `ma` at 2, `m` at 1 and 2, `pe` at 2, `p` at 1 and 2. -/
theorem filter_reads_outside_test4 :
    InsertBuilt test4Words test4Trie ∧
      test4Trie.filterReadsOutside oobNul "swing".toList "bbggg".toList
        = [("ma".toList, 2), ("m".toList, 1), ("m".toList, 2),
           ("pe".toList, 2), ("p".toList, 1), ("p".toList, 2)] :=
  ⟨insertBuilt_insertAll test4Words, by decide⟩

/-- C16: for every list `ws` of 5-letter words, every trie built by the `insert` calls
for `ws` and every guess and pattern of length 5, a word is in `getAllWords()` after
`filter(guess, pattern)` exactly when it is in the list that
`filterWordList(ws, guess, pattern)` returns; when the words of `ws` are distinct the two
hold the same words the same number of times. -/
theorem filter_agrees_with_filterWordList (oob oob1 : Str → Nat → Char) (ws : List Str)
    (t : Trie) (hb : InsertBuilt ws t) (hlen : ∀ w ∈ ws, w.length = 5)
    (guess pattern : Str) (hg : guess.length = 5) (hp : pattern.length = 5)
    (trie_counter list_counter : Int) :
    (∀ w, w ∈ (t.filter oob trie_counter guess pattern).2.1.getAllWords ↔
        w ∈ (filterWordList oob1 ws guess pattern list_counter).1) ∧
      (ws.Nodup → (t.filter oob trie_counter guess pattern).2.1.getAllWords.Perm
        (filterWordList oob1 ws guess pattern list_counter).1) := by
  obtain ⟨hinv, hmem⟩ := insertBuilt_inv ws t hb
  have hiff : ∀ w, w ∈ (t.filter oob trie_counter guess pattern).2.1.getAllWords ↔
      w ∈ (filterWordList oob1 ws guess pattern list_counter).1 := by
    intro w
    rw [getAllWords_filter oob t trie_counter guess pattern hg hp, filterWordList_eq,
      List.mem_filter, List.mem_filter, hmem]
    constructor
    · rintro ⟨⟨h1, h2⟩, h3⟩
      exact ⟨h1, by rw [wordMatches_oob oob1 oob w guess pattern h2 hg hp]; exact h3⟩
    · rintro ⟨h1, h3⟩
      exact ⟨⟨h1, hlen w h1⟩,
        by rw [wordMatches_oob oob oob1 w guess pattern (hlen w h1) hg hp]; exact h3⟩
  refine ⟨hiff, fun hnd => ?_⟩
  rw [List.perm_ext_iff_of_nodup _ _]
  · exact hiff
  · rw [getAllWords_filter oob t trie_counter guess pattern hg hp]
    exact hinv.nodup.filter _
  · rw [filterWordList_eq]
    exact hnd.filter _

/-- Witness for C16: the words of test4 with `("swing", "bbggg")`: both paths keep
thing and cling. -/
theorem filter_agrees_with_filterWordList_witness :
    (∀ w, w ∈ (test4Trie.filter oobNul 0 "swing".toList "bbggg".toList).2.1.getAllWords ↔
        w ∈ (filterWordList oobNul test4Words "swing".toList "bbggg".toList 0).1) ∧
      (filterWordList oobNul test4Words "swing".toList "bbggg".toList 0).1
        = ["thing".toList, "cling".toList] :=
  ⟨(filter_agrees_with_filterWordList oobNul oobNul test4Words test4Trie
      (insertBuilt_insertAll test4Words) (by decide) "swing".toList "bbggg".toList
      (by decide) (by decide) 0 0).1, by decide⟩

/-- C17, depth invariant: in every state reachable from a new trie by `insert` and
`filter` calls no path from the root has more than 5 edges (a node at depth 5 has no
children), and every word of `getAllWords()` has exactly 5 letters. -/
theorem depth_invariant (t : Trie) (h : Reachable t) :
    bounded t.root 5 = true ∧ ∀ w ∈ t.getAllWords, w.length = 5 :=
  ⟨bounded_of_reachable t h, fun w hw => length_of_mem_getAllWords t w hw⟩

/-- Witness for C17: the state after `insert("abcde")` and `filter("ezzzz", "bbbbb")`. -/
theorem depth_invariant_witness :
    bounded staleTrie.root 5 = true ∧ ∀ w ∈ staleTrie.getAllWords, w.length = 5 :=
  depth_invariant staleTrie staleTrie_reachable

/-- C18 as stated fails: `filter("app", "bbbbb")` on the trie of test5 leaves
`trie_counter` at 0, and `filter("swing", "bbggg")` on the trie of test4 with
`trie_counter` at `INT_MAX` leaves it at `INT_MIN`. -/
theorem filter_invalid_length_counter :
    (test5Trie.filter oobNul 0 "app".toList "bbbbb".toList).2.2 = 0 ∧
      (test5Trie.filter oobNul 0 "app".toList "bbbbb".toList).2.2 ≠ 0 + 1 ∧
      (test4Trie.filter oobNul 2147483647 "swing".toList "bbggg".toList).2.2
        = -2147483648 ∧
      (test4Trie.filter oobNul 2147483647 "swing".toList "bbggg".toList).2.2
        ≠ 2147483647 + 1 :=
  ⟨by decide, by decide, by decide, by decide⟩

/-- C18, amended: for every trie and every value of `trie_counter` in the range of a
32-bit `int` below `INT_MAX`, one call `filter(guess, pattern)` with a guess and a
pattern of length 5 raises `trie_counter` by exactly 1, whatever the trie holds; a call
in which the guess or the pattern has another length leaves `trie_counter` as it is. -/
theorem filter_counter (oob : Str → Nat → Char) (t : Trie) (trie_counter : Int)
    (guess pattern : Str) (hmin : -2147483648 ≤ trie_counter)
    (hmax : trie_counter < 2147483647) :
    (guess.length = 5 ∧ pattern.length = 5 →
        (t.filter oob trie_counter guess pattern).2.2 = trie_counter + 1) ∧
      (guess.length ≠ 5 ∨ pattern.length ≠ 5 →
        (t.filter oob trie_counter guess pattern).2.2 = trie_counter) := by
  unfold Trie.filter
  constructor
  · rintro ⟨h1, h2⟩
    rw [if_neg (by simp [h1, h2])]
    show incInt32 trie_counter = trie_counter + 1
    unfold incInt32
    omega
  · intro h
    rw [if_pos h]

/-- Witness for C18, amended: with `trie_counter` at 0, `filter("swing", "bbggg")` on the
trie of test4 leaves it at 1 and `filter("app", "bbbbb")` leaves it at 0. -/
theorem filter_counter_witness :
    (test4Trie.filter oobNul 0 "swing".toList "bbggg".toList).2.2 = 0 + 1 ∧
      (test4Trie.filter oobNul 0 "app".toList "bbbbb".toList).2.2 = 0 :=
  have h := filter_counter oobNul test4Trie 0 "swing".toList "bbggg".toList
    (by decide) (by decide)
  have h1 := filter_counter oobNul test4Trie 0 "app".toList "bbbbb".toList
    (by decide) (by decide)
  ⟨h.1 ⟨by decide, by decide⟩, h1.2 (Or.inl (by decide))⟩

/-- C19: for every trie built by `insert` calls and every letter `c`, erasing the key `c`
from the root (the edit of test3) lowers `size()` by exactly the number of stored words
that start with `c`. -/
theorem size_detach (ws : List Str) (t : Trie) (h : InsertBuilt ws t) (c : Char) :
    (t.detach c).size
        + (t.getAllWords.filter (fun w => decide (w.head? = some c))).length
      = t.size := by
  have hinv := (insertBuilt_inv ws t h).1
  rw [size_of_insertInv t hinv, size_of_insertInv _ (insertInv_detach t c hinv),
    getAllWords_detach]
  exact length_filter_add_length_filter_not (fun w => decide (w.head? = some c)) _

/-- Witness for C19: test3 erases the key `b`, three of its seven words start with `b`,
and `size()` goes from 7 to 4. -/
theorem size_detach_witness :
    test3Trie.size = 7 ∧
      (test3Trie.getAllWords.filter (fun w => decide (w.head? = some 'b'))).length = 3 ∧
      (test3Trie.detach 'b').size = 4 :=
  have h := size_detach _ test3Trie (insertBuilt_insertAll _) 'b'
  have h7 : test3Trie.size = 7 := by decide
  have h3 : (test3Trie.getAllWords.filter
      (fun w => decide (w.head? = some 'b'))).length = 3 := by decide
  ⟨h7, h3, by omega⟩

/-- C20: for all 5-letter strings `guess` and `targetWord`, the target satisfies
`matches` for the guess and the colours that the game loop computes for the guess
against the target; so a target stored in a trie (in particular one built by `insert`
calls) is still in `getAllWords()` after `filter(guess, colours)`. -/
theorem target_survives (oob oob1 : Str → Nat → Char) (t : Trie) (trie_counter : Int)
    (guess targetWord : Str) (hg : guess.length = 5) (ht : targetWord.length = 5) :
    wordMatches oob1 targetWord guess (colors oob guess targetWord) = true ∧
      (targetWord ∈ t.getAllWords →
        targetWord ∈ (t.filter oob1 trie_counter guess
          (colors oob guess targetWord)).2.1.getAllWords) := by
  have hm := wordMatches_colors oob oob1 guess targetWord hg ht
  refine ⟨hm, fun hmem => ?_⟩
  rw [getAllWords_filter oob1 t trie_counter guess _ hg (colors_length oob guess targetWord)]
  exact List.mem_filter.2 ⟨hmem, hm⟩

/-- Witness for C20: the target thing survives the guess swing in the trie of test4; the
colours are `bbggg`. -/
theorem target_survives_witness :
    colors oobNul "swing".toList "thing".toList = "bbggg".toList ∧
      "thing".toList ∈ (test4Trie.filter oobNul 0 "swing".toList
        (colors oobNul "swing".toList "thing".toList)).2.1.getAllWords :=
  ⟨by decide, (target_survives oobNul oobNul test4Trie 0 "swing".toList "thing".toList
    (by decide) (by decide)).2 (by decide)⟩

/-! ## The guess against its own colours -/

/-- Two different strings of length 5 differ at one of the 5 positions. -/
theorem exists_position_ne (guess targetWord : Str) (hg : guess.length = 5)
    (ht : targetWord.length = 5) (hne : guess ≠ targetWord) :
    ∃ i, i < 5 ∧ ∃ g c, guess[i]? = some g ∧ targetWord[i]? = some c ∧ g ≠ c := by
  by_contra hall
  apply hne
  apply List.ext_getElem?
  intro n
  by_cases hn : n < 5
  · obtain ⟨g, hgn⟩ := exists_getElem?_of_lt guess n (hg ▸ hn)
    obtain ⟨c, hcn⟩ := exists_getElem?_of_lt targetWord n (ht ▸ hn)
    by_cases hgc : g = c
    · rw [hgn, hcn, hgc]
    · exact absurd ⟨n, hn, g, c, hgn, hcn, hgc⟩ hall
  · rw [List.getElem?_eq_none (by omega), List.getElem?_eq_none (by omega)]

/-- A guess that is not the target fails the matching loop for the colours computed
against the target. -/
theorem wordMatches_guess_colors (oob oob1 : Str → Nat → Char) (guess targetWord : Str)
    (hg : guess.length = 5) (ht : targetWord.length = 5) (hne : guess ≠ targetWord) :
    wordMatches oob1 guess guess (colors oob guess targetWord) = false := by
  cases hm : wordMatches oob1 guess guess (colors oob guess targetWord) with
  | false => rfl
  | true =>
    exfalso
    rw [wordMatches_iff oob1 guess guess _ hg hg (colors_length oob guess targetWord)] at hm
    obtain ⟨i, hi, g, c, hgi, hci, hgc⟩ := exists_position_ne guess targetWord hg ht hne
    obtain ⟨c1, g1, q, hw1, hg1, hq, _, hy, hb⟩ := hm i hi
    have e1 : c1 = g := by rw [hgi] at hw1; exact (Option.some.inj hw1).symm
    have e2 : g1 = g := by rw [hgi] at hg1; exact (Option.some.inj hg1).symm
    rw [e1, e2] at hy
    rw [e2] at hb
    have hq1 : (colors oob guess targetWord)[i]? = some
        (if g = c then 'g' else if found targetWord g = true then 'y' else 'b') := by
      simp only [colors, List.getElem?_map, List.getElem?_range hi, Option.map_some',
        charAt_of_getElem? oob _ _ _ hci, charAt_of_getElem? oob _ _ _ hgi]
    rw [hq1] at hq
    have hqv := (Option.some.inj hq).symm
    rw [if_neg hgc] at hqv
    by_cases hf : found targetWord g = true
    · rw [if_pos hf] at hqv
      exact (hy hqv).1 rfl
    · rw [if_neg hf] at hqv
      exact hb hqv (List.getElem?_mem hgi)

/-! ## getFirstWord and the enumeration order -/

/-- A descent that collects 5 letters ends on the first word of the enumeration. -/
theorem firstDescent_head : ∀ (n : TrieNode) (cur : Str),
    (firstDescent n cur).length = 5 →
      (getWordsRecursively n cur).head? = some (firstDescent n cur) := by
  intro n
  induction n using TrieNode.induct with
  | step cs ih =>
    intro cur h
    by_cases hlt : cur.length < 5
    · have h5 : cur.length ≠ 5 := by omega
      cases cs with
      | nil =>
        unfold firstDescent at h
        simp only [if_pos hlt] at h
        exact absurd h h5
      | cons x rest =>
        obtain ⟨c, next⟩ := x
        unfold firstDescent at h ⊢
        simp only [if_pos hlt] at h ⊢
        rw [getWordsRecursively_of_ne _ _ h5, getWordsLoop_cons, List.head?_append,
          ih (c, next) (List.mem_cons_self _ _) _ h]
        rfl
    · unfold firstDescent at h ⊢
      simp only [if_neg hlt] at h ⊢
      rw [getWordsRecursively_of_eq _ _ h]
      rfl

/-! ## The claims, continued -/

/-- C21, progress of the elimination loop: for all 5-letter strings `guess` and
`targetWord` that differ, the guess fails `matches` for itself and the colours that the
game loop computes for it against the target; so when the guess is stored in a trie (in
particular one built by `insert` calls), `filter(guess, colours)` removes it from
`getAllWords()` and leaves fewer words in `getAllWords()` than before. -/
theorem guess_eliminated (oob oob1 : Str → Nat → Char) (t : Trie) (trie_counter : Int)
    (guess targetWord : Str) (hg : guess.length = 5) (ht : targetWord.length = 5)
    (hne : guess ≠ targetWord) :
    wordMatches oob1 guess guess (colors oob guess targetWord) = false ∧
      (guess ∈ t.getAllWords →
        guess ∉ (t.filter oob1 trie_counter guess
            (colors oob guess targetWord)).2.1.getAllWords ∧
          (t.filter oob1 trie_counter guess
            (colors oob guess targetWord)).2.1.getAllWords.length
            < t.getAllWords.length) := by
  have hm := wordMatches_guess_colors oob oob1 guess targetWord hg ht hne
  refine ⟨hm, fun hmem => ?_⟩
  rw [getAllWords_filter oob1 t trie_counter guess _ hg (colors_length oob guess targetWord)]
  constructor
  · intro hin
    rw [List.mem_filter, hm] at hin
    exact absurd hin.2 (by simp)
  · rw [List.length_filter_lt_length_iff_exists]
    exact ⟨guess, hmem, by simp [hm]⟩

/-- Witness for C21: the guess swing against the target thing in the trie of test4:
swing is removed and 2 of the 5 words are left. -/
theorem guess_eliminated_witness :
    "swing".toList ∈ test4Trie.getAllWords ∧
      "swing".toList ∉ (test4Trie.filter oobNul 0 "swing".toList
        (colors oobNul "swing".toList "thing".toList)).2.1.getAllWords ∧
      (test4Trie.filter oobNul 0 "swing".toList
        (colors oobNul "swing".toList "thing".toList)).2.1.getAllWords.length
        < test4Trie.getAllWords.length :=
  ⟨by decide, (guess_eliminated oobNul oobNul test4Trie 0 "swing".toList "thing".toList
    (by decide) (by decide) (by decide)).2 (by decide)⟩

/-- C22: for every trie, of depth at most 5 or not and with or without childless nodes
above depth 5, when `getAllWords()` is not empty `getFirstWord()` is its first element
(both follow the same iteration order of the children): the descent through the first
children either collects that word or stops short, and then the fallback takes it. -/
theorem getFirstWord_eq_head (t : Trie) (h : t.getAllWords ≠ []) :
    t.getAllWords.head? = some t.getFirstWord := by
  unfold Trie.getFirstWord
  simp only []
  by_cases hd : (firstDescent t.root []).length = 5
  · rw [if_pos hd]
    exact firstDescent_head t.root [] hd
  · rw [if_neg hd]
    cases hall : t.getAllWords with
    | nil => exact absurd hall h
    | cons w rest =>
      have hw : w.length = 5 :=
        length_of_mem_getAllWords t w (by rw [hall]; exact List.mem_cons_self _ _)
      simp [List.find?_cons, hw]

/-- Witness for C22: in `staleFirstTrie` the descent through the first children stops
at `stac`, and `getFirstWord()` is money, the first word of `getAllWords()`. -/
theorem getFirstWord_eq_head_witness :
    firstDescent staleFirstTrie.root [] = "stac".toList ∧
      staleFirstTrie.getAllWords = ["money".toList] ∧
      staleFirstTrie.getAllWords.head? = some staleFirstTrie.getFirstWord :=
  ⟨by decide, by decide, getFirstWord_eq_head staleFirstTrie (by decide)⟩

end Wordle
